import Mathlib

/-!
Verification of the codon-usage counting engine and bias-index calculators
of codonw-slim (src/codon_us.c), as a shallow embedding in Lean 4.

Modelling conventions:
* C `long`/`int` counters are `Nat` (they only ever increase from 0 here);
  where C unsigned wraparound matters (the scan-loop bound
  `i < seqlen - 2` with `unsigned int seqlen`) it is modelled explicitly
  with `% 2^32`.
* C `float`/`double` arithmetic is modelled exactly over `ℚ`.
* Fatal exits (`my_exit`) are modelled as `none` of an `Option` result.
* Arrays indexed by codon id 0..64 or amino-acid id 0..21 are functions
  `Nat → Nat` (or `Nat → ℚ`); an in-place `v[k]++` is `bump v k`.
* The genetic-code translation tables (`GENETIC_CODE_STRUCT.ca`, file
  codonW.h) are not part of src/; the universal code table `uniCa` below
  is modelled from the spec (codon ids 1..64, amino acids 1..21, 11 = stop,
  TAA/TAG/TGA stops, in the table ordering fixed by the indexer formula).
-/

/-- Base encoding of `ident_codon`'s switch: T/t/U/u ↦ 1, C/c ↦ 2,
A/a ↦ 3, G/g ↦ 4, every other character ↦ 0 (the '\0' sentinel is handled
separately by the early return, see `identCodonBuf`). -/
def baseNum (c : Char) : Nat :=
  if c = 'T' ∨ c = 't' ∨ c = 'U' ∨ c = 'u' then 1
  else if c = 'C' ∨ c = 'c' then 2
  else if c = 'A' ∨ c = 'a' then 3
  else if c = 'G' ∨ c = 'g' then 4
  else 0

/-- The end-of-string sentinel character '\0'. -/
def nulChar : Char := Char.ofNat 0

/-- Shallow embedding of `ident_codon` (src/codon_us.c:180-220) including its
in-place rewriting of the 3-byte buffer: positions are processed left to
right, a '\0' returns 0 immediately (leaving the rest of the buffer
untouched), otherwise the position is overwritten with its base number;
finally the codon id is `(b1-1)*16 + b2 + (b3-1)*4` if no position was 0,
else 0.  Returns (mutated buffer, icode). -/
def identCodonBuf (c0 c1 c2 : Char) : (Char × Char × Char) × Nat :=
  if c0 = nulChar then ((c0, c1, c2), 0)
  else
    let d0 := Char.ofNat (baseNum c0)
    if c1 = nulChar then ((d0, c1, c2), 0)
    else
      let d1 := Char.ofNat (baseNum c1)
      if c2 = nulChar then ((d0, d1, c2), 0)
      else
        let d2 := Char.ofNat (baseNum c2)
        ((d0, d1, d2),
          if baseNum c0 * baseNum c1 * baseNum c2 ≠ 0 then
            (baseNum c0 - 1) * 16 + baseNum c1 + (baseNum c2 - 1) * 4
          else 0)

/-- The numeric result of `ident_codon` on a full 3-character codon. -/
def identCodon (c0 c1 c2 : Char) : Nat := (identCodonBuf c0 c1 c2).2

/-- The codon-id formula of `ident_codon` on already-encoded bases. -/
def codonId (p : Nat × Nat × Nat) : Nat :=
  (p.1 - 1) * 16 + p.2.1 + (p.2.2 - 1) * 4

/-- All triplets of recognized base numbers 1..4. -/
def B3 : Finset (Nat × Nat × Nat) :=
  Finset.Icc 1 4 ×ˢ Finset.Icc 1 4 ×ˢ Finset.Icc 1 4

/-- Modelled from the spec: the built-in universal genetic-code translation
table (missing from src/; it lives in the menu/reference tables next to
codonW.h).  Index = codon id from `identCodon`; value = amino-acid id in
1..21 with 11 = stop; entry 0 is the reserved untranslatable bucket.
Amino-acid numbering: 1 Phe, 2 Leu, 3 Ile, 4 Met, 5 Val, 6 Ser, 7 Pro,
8 Thr, 9 Ala, 10 Tyr, 11 TER, 12 His, 13 Gln, 14 Asn, 15 Lys, 16 Asp,
17 Glu, 18 Cys, 19 Trp, 20 Arg, 21 Gly; stops are TAA (id 11), TGA (id 12)
and TAG (id 15) as in the universal code. -/
def uniCaList : List Nat :=
  [0,
   1, 6, 10, 18,  1, 6, 10, 18,  2, 6, 11, 11,  2, 6, 11, 19,
   2, 7, 12, 20,  2, 7, 12, 20,  2, 7, 13, 20,  2, 7, 13, 20,
   3, 8, 14, 6,   3, 8, 14, 6,   3, 8, 15, 20,  4, 8, 15, 20,
   5, 9, 16, 21,  5, 9, 16, 21,  5, 9, 17, 21,  5, 9, 17, 21]

/-- The universal genetic code as a lookup function (codon id ↦ amino id). -/
def uniCa (n : Nat) : Nat := uniCaList.getD n 0

/-- Embedding of `how_synon` (src/codon_us.c:108-122): for a codon x,
the number of codons 1..64 translating to the same amino acid. -/
def how_synon (ca : Nat → Nat) (x : Nat) : Nat :=
  ((Finset.Icc 1 64).filter (fun i => ca i = ca x)).card

/-- Embedding of `how_synon_aa` (src/codon_us.c:127-139): for an amino acid
a, the number of codons 1..64 translating to it. -/
def how_synon_aa (ca : Nat → Nat) (a : Nat) : Nat :=
  ((Finset.Icc 1 64).filter (fun i => ca i = a)).card

/-- Precomputed `how_synon uniCa` (codon id ↦ size of its synonym family);
see theorem uniDs_eq_how_synon for the proof that this table equals the
source computation. -/
def uniDsList : List Nat :=
  [0,
   2, 6, 2, 2,  2, 6, 2, 2,  6, 6, 3, 3,  6, 6, 3, 1,
   6, 4, 2, 6,  6, 4, 2, 6,  6, 4, 2, 6,  6, 4, 2, 6,
   3, 4, 2, 6,  3, 4, 2, 6,  3, 4, 2, 6,  1, 4, 2, 6,
   4, 4, 2, 4,  4, 4, 2, 4,  4, 4, 2, 4,  4, 4, 2, 4]

/-- Synonym count per codon for the universal code (the `ds` array). -/
def uniDs (n : Nat) : Nat := uniDsList.getD n 0

/-- Precomputed `how_synon_aa uniCa` (amino id ↦ family size); see theorem
uniDa_eq_how_synon_aa. -/
def uniDaList : List Nat :=
  [0, 2, 6, 3, 1, 4, 6, 4, 4, 4, 2, 3, 2, 2, 2, 2, 2, 2, 2, 1, 6, 4]

/-- Family size per amino acid for the universal code (the `da` array). -/
def uniDa (n : Nat) : Nat := uniDaList.getD n 0

/-- In-place increment `v[k]++` of a counter array. -/
def bump (f : Nat → Nat) (k : Nat) : Nat → Nat :=
  fun j => if j = k then f j + 1 else f j

/-- The counter state threaded through `codon_usage_tot`: the codon-usage
array `ncod[0..64]`, the amino-acid-usage array `naa[0..21]`, the running
`codon_tot` and the `valid_stops` counter. -/
structure CodonCounts where
  ncod : Nat → Nat
  naa : Nat → Nat
  codon_tot : Nat
  valid_stops : Nat

/-- The zeroed counter state (after `clean_up`). -/
def zeroCounts : CodonCounts :=
  { ncod := fun _ => 0, naa := fun _ => 0, codon_tot := 0, valid_stops := 0 }

/-- One iteration of the scan loop of `codon_usage_tot`
(src/codon_us.c:154-161): `ncod[icode]++; naa[ca[icode]]++; codon_tot++`. -/
def cuStep (ca : Nat → Nat) (st : CodonCounts) (ic : Nat) : CodonCounts :=
  { st with
    ncod := bump st.ncod ic
    naa := bump st.naa (ca ic)
    codon_tot := st.codon_tot + 1 }

/-- The scan loop of `codon_usage_tot` with the caller's sequence buffer
made explicit.  Each iteration copies the next triplet out of the sequence
(the `strncpy(codon, seq+i, 3)` into the local 4-byte buffer) and runs
`identCodonBuf` on the copy; the in-place rewriting therefore hits only the
copy, and the returned sequence is rebuilt from the original characters.
Returns (sequence buffer after the loop, counters, last icode if any codon
was scanned).  This models the loop for sequences of length ≥ 2, where the
C bound `i < seqlen - 2` means "a full triplet remains" (for lengths 0 and
1 the unsigned bound underflows; that behaviour is modelled separately by
`cu_loop_bound`). -/
def cu_mem (ca : Nat → Nat) : List Char → CodonCounts →
    List Char × CodonCounts × Option Nat
  | c0 :: c1 :: c2 :: rest, st =>
    let r := identCodonBuf c0 c1 c2
    let k := cu_mem ca rest (cuStep ca st r.2)
    (c0 :: c1 :: c2 :: k.1, k.2.1, some (k.2.2.getD r.2))
  | l, st => (l, st, none)

/-- The list of codon ids produced by the scan loop (specification view of
`cu_mem`, one id per full non-overlapping triplet from offset 0). -/
def scanIds : List Char → List Nat
  | c0 :: c1 :: c2 :: rest => identCodon c0 c1 c2 :: scanIds rest
  | _ => []

/-- Embedding of `codon_usage_tot` (src/codon_us.c:147-173) for sequences
of length ≥ 2: run the scan loop; if the length is not a multiple of 3 set
icode to 0 and count one untranslated codon (`ncod[0]++`); finally, if the
(possibly reset) icode translates to the stop amino acid 11, increment
`valid_stops`.  Returns (final counters, returned icode). -/
def codon_usage_tot (ca : Nat → Nat) (seq : List Char) (st : CodonCounts) :
    CodonCounts × Nat :=
  let r := cu_mem ca seq st
  let st1 := r.2.1
  let icode := if seq.length % 3 ≠ 0 then 0 else (r.2.2).getD 0
  let st2 :=
    if seq.length % 3 ≠ 0 then { st1 with ncod := bump st1.ncod 0 } else st1
  let st3 :=
    if ca icode = 11 then { st2 with valid_stops := st2.valid_stops + 1 }
    else st2
  (st3, icode)

/-- The C scan-loop bound: `unsigned int` evaluation of `seqlen - 2`
(src/codon_us.c:154).  For `seqlen < 2` this underflows. -/
def cu_loop_bound (seqlen : Nat) : Nat := (seqlen + 4294967296 - 2) % 4294967296

/-- The scan loop visits offsets 0, 3, 6, ... below `cu_loop_bound seqlen`;
`strncpy` then starts reading at `seq + i`.  An offset strictly beyond the
string length (the terminator sits at index `seqlen`) makes it read memory
outside the caller's buffer. -/
def cu_oob_read (seqlen : Nat) : Prop :=
  ∃ i, i % 3 = 0 ∧ i < cu_loop_bound seqlen ∧ seqlen < i

/-- Embedding of `codon_error` at error level 1 (internal stop codons,
src/codon_us.c:237-275): `ns` counts stop codons among `ncod[1..64]`, minus
`valid_stops`; with warnings enabled a nonzero `ns` emits the warning and
increments the internal-stop-sequence counter `num_seq_int_stop`.  The
start-codon check is permanently disabled (`valid_start = true`).  Returns
(counted codon total `loc_cod_tot`, warning emitted?, counter increment). -/
def codon_error_level1 (ca : Nat → Nat) (ncod : Nat → Nat)
    (valid_stops : Nat) (warn : Bool) : Nat × Bool × Nat :=
  let ns : Int :=
    (∑ i ∈ Finset.Icc 1 64, if ca i = 11 then (ncod i : Int) else 0)
      - (valid_stops : Int)
  let w : Bool := ns ≠ 0 && warn
  (∑ i ∈ Finset.Icc 1 64, ncod i, w, if w then 1 else 0)

/-- The digit-acceptance test of the Fop/CBI file readers
(src/codon_us.c:724-732 and 857-865): a character is stored as a table
entry iff it is a decimal digit whose value is at most 3 (so '0'..'3' are
stored — including '0' — while '4'..'9' and non-digits are skipped). -/
def fopDigitOk (c : Char) : Prop := c.isDigit ∧ c.toNat - 48 ≤ 3

instance (c : Char) : Decidable (fopDigitOk c) := by
  unfold fopDigitOk; infer_instance

/-- The reading loop of the CBI/Fop classification-file loader: `x` starts
at 1 (entry 0 was pre-stored), each accepted digit does `fop_cod[x++] = v`,
and the loop stops early once `x` exceeds 66.  Returns the final `x`. -/
def cbi_load_count : List Char → Nat → Nat
  | [], x => x
  | c :: cs, x =>
    if 66 < x then x
    else if fopDigitOk c then cbi_load_count cs (x + 1)
    else cbi_load_count cs x

/-- The stored classification values, in order (parallel to
`cbi_load_count`; the value of digit c is `c.toNat - 48`). -/
def cbi_load_vals : List Char → Nat → List Nat
  | [], _ => []
  | c :: cs, x =>
    if 66 < x then []
    else if fopDigitOk c then (c.toNat - 48) :: cbi_load_vals cs (x + 1)
    else cbi_load_vals cs x

/-- A classification source loads successfully iff the reader ends with
`x = 65` (64 stored digits); otherwise `my_exit` aborts the run
(src/codon_us.c:734-740, 867-873). -/
def cbi_load_ok (src : List Char) : Prop := cbi_load_count src 1 = 65

instance (src : List Char) : Decidable (cbi_load_ok src) := by
  unfold cbi_load_ok; infer_instance

/-- The CAI weight-file reader (src/codon_us.c:624-640) on the stream of
parsed float values: each value outside [0,1] aborts immediately; at end of
file `x ≠ 65` (i.e. not exactly 64 values stored after the pre-stored entry
0) aborts with a count mismatch.  `some x` = reader reached EOF with
counter x; `none` = fatal out-of-range abort. -/
def cai_load_scan : List ℚ → Nat → Option Nat
  | [], x => some x
  | v :: vs, x =>
    if v < 0 ∨ 1 < v then none else cai_load_scan vs (x + 1)

/-- A CAI weight source loads successfully iff scanning accepts every value
and ends with `x = 65`. -/
def cai_load_ok (vals : List ℚ) : Prop := cai_load_scan vals 1 = some 65

instance (vals : List ℚ) : Decidable (cai_load_ok vals) := by
  unfold cai_load_ok; infer_instance

/-- The `has_opt_info` initialisation shared by `fop_out` and `cbi_out`
(src/codon_us.c:749-758, 881-906, with the modified-Fop switch constantly
off): for amino acid a, the number of codons x in 1..64 that are neither
stop-coding nor non-synonymous (`ds[x] = 1`) and are classified optimal
(`fop_cod[x] = 3`). -/
def hasOptInfo (ca ds cod : Nat → Nat) (a : Nat) : Nat :=
  ((Finset.Icc 1 64).filter
    (fun x => ¬(ca x = 11 ∨ ds x = 1) ∧ cod x = 3 ∧ ca x = a)).card

/-- The accumulation loop of `cbi_out` (src/codon_us.c:763-790) hits the
fatal `default` branch iff some codon of an eligible family carries a
classification outside {1,2,3}. -/
def cbi_class_ok (ca ds cod : Nat → Nat) : Prop :=
  ∀ x ∈ (Finset.Icc 1 64).filter (fun x => hasOptInfo ca ds cod (ca x) ≠ 0),
    cod x = 3 ∨ cod x = 2 ∨ cod x = 1

instance (ca ds cod : Nat → Nat) : Decidable (cbi_class_ok ca ds cod) := by
  unfold cbi_class_ok; infer_instance

/-- Optimal-codon tally `opt` of `cbi_out`: occurrences of eligible codons
classified 3. -/
def cbi_opt (ncod ca ds cod : Nat → Nat) : Nat :=
  ∑ x ∈ (Finset.Icc 1 64).filter
      (fun x => hasOptInfo ca ds cod (ca x) ≠ 0 ∧ cod x = 3), ncod x

/-- Eligible-codon tally `tot_cod` of `cbi_out`: occurrences of eligible
codons classified 3, 2 or 1. -/
def cbi_tot (ncod ca ds cod : Nat → Nat) : Nat :=
  ∑ x ∈ (Finset.Icc 1 64).filter
      (fun x => hasOptInfo ca ds cod (ca x) ≠ 0 ∧
        (cod x = 3 ∨ cod x = 2 ∨ cod x = 1)), ncod x

/-- Expected-usage baseline `exp_cod` of `cbi_out`: for each eligible codon
classified 3, add `naa[ca[x]] / da[ca[x]]`. -/
def cbi_exp (naa ca ds da cod : Nat → Nat) : ℚ :=
  ∑ x ∈ (Finset.Icc 1 64).filter
      (fun x => hasOptInfo ca ds cod (ca x) ≠ 0 ∧ cod x = 3),
    (naa (ca x) : ℚ) / (da (ca x) : ℚ)

/-- Embedding of `cbi_out`'s numeric result (src/codon_us.c:763-797):
`none` models the fatal exit on an illegal classification value; otherwise
CBI = (opt - exp_cod) / (tot_cod - exp_cod), or 0 when the denominator is
zero. -/
def cbi_result (ncod naa ca ds da cod : Nat → Nat) : Option ℚ :=
  if cbi_class_ok ca ds cod then
    some
      (if (cbi_tot ncod ca ds cod : ℚ) - cbi_exp naa ca ds da cod ≠ 0 then
        ((cbi_opt ncod ca ds cod : ℚ) - cbi_exp naa ca ds da cod) /
          ((cbi_tot ncod ca ds cod : ℚ) - cbi_exp naa ca ds da cod)
      else 0)
  else none

/-- The squared-frequency sum `s2` of `enc_out` for amino acid i
(src/codon_us.c:993-1007): over all codons of i, add
`(ncod[x]/naa[i])^2`, with unused codons contributing `k2 = 0`. -/
def enc_s2 (ncod naa ca : Nat → Nat) (i : Nat) : ℚ :=
  ∑ x ∈ Finset.Icc 1 64,
    if ca x = i then
      (if ncod x = 0 then 0 else ((ncod x : ℚ) / (naa i : ℚ)) ^ 2)
    else 0

/-- The homozygosity `bb` of `enc_out` for amino acid i
(src/codon_us.c:989-1010): 0 when the amino acid occurs at most once, else
`(naa[i]·s2 - 1) / (naa[i] - 1)`. -/
def enc_bb (ncod naa ca : Nat → Nat) (i : Nat) : ℚ :=
  if naa i ≤ 1 then 0
  else ((naa i : ℚ) * enc_s2 ncod naa ca i - 1) / ((naa i : ℚ) - 1)

/-- The per-fold accumulators of `enc_out`: `totb[z]` sums the
homozygosities of the z-fold amino acids, `numaa[z]` counts how many of
them qualified, `fold[z]` counts all z-fold amino acids. -/
structure EncAcc where
  totb : Nat → ℚ
  numaa : Nat → Nat
  fold : Nat → Nat

/-- The amino-acid pass of `enc_out` (src/codon_us.c:984-1021): for every
amino acid i in 1..21 except the stop 11, compute `bb`; if `bb > 1e-7`,
add it into `totb[da[i]]` and count it in `numaa[da[i]]`; always count i in
`fold[da[i]]`. -/
def enc_aa_step (ncod naa ca da : Nat → Nat) (acc : EncAcc) (i : Nat) :
    EncAcc :=
  if i = 11 then acc
  else
    let b := enc_bb ncod naa ca i
    let acc1 :=
      if b > 1 / 10000000 then
        { acc with
          totb := fun z => if z = da i then acc.totb z + b else acc.totb z
          numaa := bump acc.numaa (da i) }
      else acc
    { acc1 with fold := bump acc1.fold (da i) }

/-- All 21 amino acids, processed in source order from zeroed arrays. -/
def enc_aa_pass (ncod naa ca da : Nat → Nat) : EncAcc :=
  (List.range' 1 21).foldl (enc_aa_step ncod naa ca da)
    { totb := fun _ => 0, numaa := fun _ => 0, fold := fun _ => 0 }

/-- The fold-class average homozygosity of `enc_out`
(src/codon_us.c:1029-1039): the plain average when fold z has qualifying
data; the fold 2 / fold 4 interpolation for the single 3-fold amino acid;
otherwise `none` (the "Nc not calculated" error path). -/
def enc_averb (acc : EncAcc) (z : Nat) : Option ℚ :=
  if acc.numaa z ≠ 0 ∧ 0 < acc.totb z then
    some (acc.totb z / (acc.numaa z : ℚ))
  else if z = 3 ∧ acc.numaa 2 ≠ 0 ∧ acc.numaa 4 ≠ 0 ∧ acc.fold 3 = 1 then
    some ((acc.totb 2 / (acc.numaa 2 : ℚ) + acc.totb 4 / (acc.numaa 4 : ℚ))
      * (1 / 2))
  else none

/-- One iteration of the z-loop of `enc_out` (src/codon_us.c:1024-1043):
fold classes without amino acids contribute nothing; populated classes
contribute `fold[z] / averb`, or abort the calculation when `enc_averb`
has no value. -/
def enc_step (acc : EncAcc) (z : Nat) : Option ℚ :=
  if acc.fold z ≠ 0 then
    (enc_averb acc z).map (fun a => (acc.fold z : ℚ) / a)
  else some 0

/-- Left-to-right accumulation of the z-loop with the `break`-on-error
behaviour: a failing class makes the whole result `none`. -/
def enc_go (step : Nat → Option ℚ) : List Nat → ℚ → Option ℚ
  | [], acc => some acc
  | z :: zs, acc =>
    match step z with
    | none => none
    | some c => enc_go step zs (acc + c)

/-- The Enc value computed by `enc_out` before output: `fold[1]` plus the
contributions of fold classes 2..8; `none` models the error path that
prints the `*****` sentinel. -/
def enc_result (ncod naa ca da : Nat → Nat) : Option ℚ :=
  let acc := enc_aa_pass ncod naa ca da
  enc_go (enc_step acc) [2, 3, 4, 5, 6, 7, 8] (acc.fold 1 : ℚ)

/-- The Enc value as reported (src/codon_us.c:1045-1050): values above 61
are printed as 61.00, the error path prints the sentinel (`none`). -/
def enc_reported (ncod naa ca da : Nat → Nat) : Option ℚ :=
  (enc_result ncod naa ca da).map (fun e => if e ≤ 61 then e else 61)

/-- A counter state is consistent when each amino acid's usage equals the
summed usage of its codons — the invariant produced by the counting loop
(`naa[ca[x]]` is incremented exactly when `ncod[x]` is). -/
def CountConsistent (ncod naa ca : Nat → Nat) : Prop :=
  ∀ i ∈ Finset.Icc 1 21,
    naa i = ∑ x ∈ Finset.Icc 1 64, if ca x = i then ncod x else 0

instance (ncod naa ca : Nat → Nat) [DecidablePred (ca · = 11)] :
    Decidable (CountConsistent ncod naa ca) := by
  unfold CountConsistent; infer_instance

/-- Uniform codon usage: every codon 1..64 used exactly twice. -/
def uniNcod : Nat → Nat := fun x => if 1 ≤ x ∧ x ≤ 64 then 2 else 0

/-- The amino-acid usage matching `uniNcod` under the universal code. -/
def uniNaa : Nat → Nat := fun i => 2 * uniDa i

/-- The in-place weight clamping performed by the accumulation loop of
`cai_out` (src/codon_us.c:651-659): for every codon it visits (synonymous,
non-stop), a relative adaptiveness below 0.0001 is overwritten with 0.01
in the loaded reference table itself. -/
def cai_clamp (ca ds : Nat → Nat) (w : Nat → ℚ) : Nat → ℚ :=
  fun x =>
    if 1 ≤ x ∧ x ≤ 64 ∧ ¬(ca x = 11 ∨ ds x = 1) ∧ w x < 1 / 10000 then
      1 / 100
    else w x

/-- The CAI accumulators after the loop: `sigma` would be
`Σ ncod[x]·ln(w[x])` over the clamped weights and `totaa` the matching
codon count; the reported CAI is `exp(sigma/totaa)` (or 0), a function of
these observables.  The log/exp step is transcendental, so the observable
kept here is the pair (codon count, clamped weight) per visited codon,
which determines the reported number. -/
def cai_obs (ncod ca ds : Nat → Nat) (w : Nat → ℚ) : Nat → Nat × ℚ :=
  fun x => (ncod x, cai_clamp ca ds w x)

/-- The `codon_tot` overwrite performed by `cutab_out`
(src/codon_us.c:1207): `codon_tot = codon_error(..., 4)`, i.e. the shared
counter is replaced by the freshly summed `ncod[1..64]`. -/
def cutab_update (st : CodonCounts) : CodonCounts :=
  { st with codon_tot := ∑ i ∈ Finset.Icc 1 64, st.ncod i }

/-- A counter vector using only ATA (codon 41, Ile) three times. -/
def cbiNcodCex : Nat → Nat := fun x => if x = 41 then 3 else 0

/-- The matching amino-acid usage: three Ile (amino acid 3). -/
def cbiNaaCex : Nat → Nat := fun i => if i = 3 then 3 else 0

/-- A classification table marking two of Ile's three codons (ATT = 33 and
ATC = 37) optimal and everything else non-optimal. -/
def cbiCodCex : Nat → Nat := fun x => if x = 33 ∨ x = 37 then 3 else 1

/-- A counter vector using TTT (codon 1) and TTC (codon 5) once each. -/
def cbiNcodW : Nat → Nat := fun x => if x = 1 ∨ x = 5 then 1 else 0

/-- The matching amino-acid usage: two Phe (amino acid 1). -/
def cbiNaaW : Nat → Nat := fun i => if i = 1 then 2 else 0

/-- A classification table marking only TTT (codon 1) optimal. -/
def cbiCodW : Nat → Nat := fun x => if x = 1 then 3 else 1

/-- Invariant of the per-amino-acid pass of `enc_out`: the homozygosity
sums are nonnegative, bounded by the qualifying counts (each included
homozygosity is at most 1), and positive as soon as one amino acid
qualified (each included homozygosity exceeds the 1e-7 threshold). -/
def EncInv (acc : EncAcc) : Prop :=
  ∀ z, 0 ≤ acc.totb z ∧ acc.totb z ≤ (acc.numaa z : ℚ)
    ∧ (acc.numaa z ≠ 0 → 0 < acc.totb z)

theorem sum_bump (f : Nat → Nat) (k : Nat) (s : Finset Nat) :
    ∑ i ∈ s, bump f k i = (∑ i ∈ s, f i) + if k ∈ s then 1 else 0 := by
  have h : ∀ i, bump f k i = f i + (if i = k then 1 else 0) := by
    intro i; unfold bump; split_ifs with h1
    · subst h1; rfl
    · rfl
  simp only [h, Finset.sum_add_distrib]
  congr 1
  rw [Finset.sum_ite_eq' s k (fun _ => 1)]

theorem baseNum_le (c : Char) : baseNum c ≤ 4 := by
  unfold baseNum; split_ifs <;> omega

theorem identCodon_le (c0 c1 c2 : Char) : identCodon c0 c1 c2 ≤ 64 := by
  unfold identCodon identCodonBuf
  have h0 := baseNum_le c0
  have h1 := baseNum_le c1
  have h2 := baseNum_le c2
  split_ifs <;> simp <;> omega

theorem cu_mem_seq (ca : Nat → Nat) :
    ∀ (l : List Char) (st : CodonCounts), (cu_mem ca l st).1 = l
  | c0 :: c1 :: c2 :: rest, st => by
    simp only [cu_mem]
    rw [cu_mem_seq ca rest]
  | [], _ => rfl
  | [_], _ => rfl
  | [_, _], _ => rfl

theorem cu_mem_valid_stops (ca : Nat → Nat) :
    ∀ (l : List Char) (st : CodonCounts),
      (cu_mem ca l st).2.1.valid_stops = st.valid_stops
  | c0 :: c1 :: c2 :: rest, st => by
    simp only [cu_mem]
    rw [cu_mem_valid_stops ca rest]
    rfl
  | [], _ => rfl
  | [_], _ => rfl
  | [_, _], _ => rfl

theorem cu_mem_codon_tot (ca : Nat → Nat) :
    ∀ (l : List Char) (st : CodonCounts),
      (cu_mem ca l st).2.1.codon_tot = st.codon_tot + (scanIds l).length
  | c0 :: c1 :: c2 :: rest, st => by
    simp only [cu_mem, scanIds]
    rw [cu_mem_codon_tot ca rest]
    simp only [cuStep, List.length_cons]
    omega
  | [], _ => rfl
  | [_], _ => rfl
  | [_, _], _ => rfl

theorem cu_mem_ncod_sum (ca : Nat → Nat) (s : Finset Nat) :
    ∀ (l : List Char) (st : CodonCounts),
      ∑ i ∈ s, (cu_mem ca l st).2.1.ncod i
        = (∑ i ∈ s, st.ncod i)
          + (scanIds l).countP (fun k => decide (k ∈ s))
  | c0 :: c1 :: c2 :: rest, st => by
    simp only [cu_mem, scanIds, List.countP_cons]
    rw [cu_mem_ncod_sum ca s rest]
    simp only [cuStep]
    rw [sum_bump]
    by_cases h : identCodon c0 c1 c2 ∈ s <;>
      simp [h, identCodon] <;> omega
  | [], _ => by simp [cu_mem, scanIds]
  | [_], _ => by simp [cu_mem, scanIds]
  | [_, _], _ => by simp [cu_mem, scanIds]

theorem cu_mem_naa_sum (ca : Nat → Nat) (s : Finset Nat) :
    ∀ (l : List Char) (st : CodonCounts),
      ∑ i ∈ s, (cu_mem ca l st).2.1.naa i
        = (∑ i ∈ s, st.naa i)
          + (scanIds l).countP (fun k => decide (ca k ∈ s))
  | c0 :: c1 :: c2 :: rest, st => by
    simp only [cu_mem, scanIds, List.countP_cons]
    rw [cu_mem_naa_sum ca s rest]
    simp only [cuStep]
    rw [sum_bump]
    by_cases h : ca (identCodon c0 c1 c2) ∈ s <;>
      simp [h, identCodon] <;> omega
  | [], _ => by simp [cu_mem, scanIds]
  | [_], _ => by simp [cu_mem, scanIds]
  | [_, _], _ => by simp [cu_mem, scanIds]

theorem cu_mem_icode (ca : Nat → Nat) :
    ∀ (l : List Char) (st : CodonCounts),
      (cu_mem ca l st).2.2 = (scanIds l).getLast?
  | c0 :: c1 :: c2 :: rest, st => by
    simp only [cu_mem, scanIds]
    rw [cu_mem_icode ca rest]
    cases h : scanIds rest with
    | nil => simp [identCodon]
    | cons b bs =>
      rw [List.getLast?_cons_cons]
      rw [List.getLast?_eq_getLast _ (by simp)]
      simp
  | [], _ => rfl
  | [_], _ => rfl
  | [_, _], _ => rfl

theorem scanIds_length :
    ∀ l : List Char, (scanIds l).length = l.length / 3
  | c0 :: c1 :: c2 :: rest => by
    simp only [scanIds, List.length_cons]
    rw [scanIds_length rest]
    omega
  | [] => rfl
  | [_] => by simp [scanIds]
  | [_, _] => by simp [scanIds]

theorem scanIds_le : ∀ (l : List Char), ∀ k ∈ scanIds l, k ≤ 64
  | c0 :: c1 :: c2 :: rest => by
    intro k hk
    simp only [scanIds, List.mem_cons] at hk
    rcases hk with h | h
    · subst h; exact identCodon_le c0 c1 c2
    · exact scanIds_le rest k h
  | [] => by intro k hk; simp [scanIds] at hk
  | [_] => by intro k hk; simp [scanIds] at hk
  | [_, _] => by intro k hk; simp [scanIds] at hk

theorem cut_ncod (ca : Nat → Nat) (seq : List Char) (st : CodonCounts) :
    (codon_usage_tot ca seq st).1.ncod
      = if seq.length % 3 ≠ 0 then bump (cu_mem ca seq st).2.1.ncod 0
        else (cu_mem ca seq st).2.1.ncod := by
  simp only [codon_usage_tot]
  split_ifs <;> rfl

theorem cut_naa (ca : Nat → Nat) (seq : List Char) (st : CodonCounts) :
    (codon_usage_tot ca seq st).1.naa = (cu_mem ca seq st).2.1.naa := by
  simp only [codon_usage_tot]
  split_ifs <;> rfl

theorem cut_tot_eq (ca : Nat → Nat) (seq : List Char) (st : CodonCounts) :
    (codon_usage_tot ca seq st).1.codon_tot
      = (cu_mem ca seq st).2.1.codon_tot := by
  simp only [codon_usage_tot]
  split_ifs <;> rfl

theorem cut_vs_eq (ca : Nat → Nat) (seq : List Char) (st : CodonCounts) :
    (codon_usage_tot ca seq st).1.valid_stops
      = (cu_mem ca seq st).2.1.valid_stops
        + (if ca (if seq.length % 3 ≠ 0 then 0
              else (cu_mem ca seq st).2.2.getD 0) = 11 then 1 else 0) := by
  simp only [codon_usage_tot]
  split_ifs <;> simp

theorem cut_ncod_sum (ca : Nat → Nat) (seq : List Char) (st : CodonCounts)
    (s : Finset Nat) (h0 : 0 ∉ s) :
    ∑ i ∈ s, (codon_usage_tot ca seq st).1.ncod i
      = (∑ i ∈ s, st.ncod i)
        + (scanIds seq).countP (fun k => decide (k ∈ s)) := by
  simp only [cut_ncod ca seq st]
  by_cases h1 : seq.length % 3 ≠ 0
  · simp only [if_pos h1]
    rw [sum_bump]
    simp [h0, cu_mem_ncod_sum ca s seq st]
  · simp only [if_neg h1]
    exact cu_mem_ncod_sum ca s seq st

theorem cut_naa_sum (ca : Nat → Nat) (seq : List Char) (st : CodonCounts)
    (s : Finset Nat) :
    ∑ i ∈ s, (codon_usage_tot ca seq st).1.naa i
      = (∑ i ∈ s, st.naa i)
        + (scanIds seq).countP (fun k => decide (ca k ∈ s)) := by
  simp only [cut_naa ca seq st]
  exact cu_mem_naa_sum ca s seq st

theorem cut_codon_tot (ca : Nat → Nat) (seq : List Char) (st : CodonCounts) :
    (codon_usage_tot ca seq st).1.codon_tot
      = st.codon_tot + (scanIds seq).length := by
  rw [cut_tot_eq ca seq st]
  exact cu_mem_codon_tot ca seq st

theorem cut_valid_stops (ca : Nat → Nat) (seq : List Char)
    (st : CodonCounts) :
    (codon_usage_tot ca seq st).1.valid_stops
      = st.valid_stops
        + (if ca (if seq.length % 3 ≠ 0 then 0
              else (scanIds seq).getLast?.getD 0) = 11 then 1 else 0) := by
  rw [cut_vs_eq ca seq st, cu_mem_valid_stops ca seq st,
    cu_mem_icode ca seq st]

theorem uniCa_mem_Icc : ∀ k, k < 65 →
    (uniCa k ∈ Finset.Icc 1 21 ↔ k ∈ Finset.Icc 1 64) := by decide

/-- Claim C1 (amended): starting from a zeroed `CountState`, for every
sequence of length ≥ 2 (the in-spec domain of the scan loop),
`sum(ncod[1..64])` equals the number of scanned full triplets whose codon
id is nonzero (all three bases recognized) — not `floor(len/3)` when
unrecognized bases occur; `codon_tot` equals `floor(len/3)`, the number of
scanned triplets; and `sum(naa[1..21]) = sum(ncod[1..64])` (the
untranslated bucket `ncod[0]` is never mirrored into `naa`). -/
theorem C1_count_invariants (seq : List Char) (h2 : 2 ≤ seq.length) :
    (∑ i ∈ Finset.Icc 1 64,
        (codon_usage_tot uniCa seq zeroCounts).1.ncod i)
      = (scanIds seq).countP (fun k => decide (k ≠ 0))
    ∧ (codon_usage_tot uniCa seq zeroCounts).1.codon_tot = seq.length / 3
    ∧ (∑ i ∈ Finset.Icc 1 21,
        (codon_usage_tot uniCa seq zeroCounts).1.naa i)
      = ∑ i ∈ Finset.Icc 1 64,
          (codon_usage_tot uniCa seq zeroCounts).1.ncod i := by
  have hn : ∑ i ∈ Finset.Icc 1 64,
      (codon_usage_tot uniCa seq zeroCounts).1.ncod i
      = (scanIds seq).countP (fun k => decide (k ≠ 0)) := by
    rw [cut_ncod_sum uniCa seq zeroCounts _ (by decide)]
    simp only [zeroCounts, Finset.sum_const_zero, Nat.zero_add]
    apply List.countP_congr
    intro k hk
    have hk64 := scanIds_le seq k hk
    simp only [decide_eq_true_eq, Finset.mem_Icc]
    omega
  refine ⟨hn, ?_, ?_⟩
  · rw [cut_codon_tot uniCa seq zeroCounts, scanIds_length seq]
    simp [zeroCounts]
  · rw [hn, cut_naa_sum uniCa seq zeroCounts]
    simp only [zeroCounts, Finset.sum_const_zero, Nat.zero_add]
    apply List.countP_congr
    intro k hk
    have hk64 := scanIds_le seq k hk
    simp only [decide_eq_true_eq]
    rw [uniCa_mem_Icc k (by omega)]
    simp only [Finset.mem_Icc]
    omega

theorem C1_count_invariants_witness :
    (∑ i ∈ Finset.Icc 1 64,
        (codon_usage_tot uniCa ['A', 'T', 'G'] zeroCounts).1.ncod i)
      = (scanIds ['A', 'T', 'G']).countP (fun k => decide (k ≠ 0))
    ∧ (codon_usage_tot uniCa ['A', 'T', 'G'] zeroCounts).1.codon_tot
      = (['A', 'T', 'G'] : List Char).length / 3
    ∧ (∑ i ∈ Finset.Icc 1 21,
        (codon_usage_tot uniCa ['A', 'T', 'G'] zeroCounts).1.naa i)
      = ∑ i ∈ Finset.Icc 1 64,
          (codon_usage_tot uniCa ['A', 'T', 'G'] zeroCounts).1.ncod i :=
  C1_count_invariants ['A', 'T', 'G'] (by decide)

/-- Claim C1 fails as stated: on the all-unrecognized sequence "NNN" the
single scanned triplet goes to `ncod[0]`, so `sum(ncod[1..64]) = 0` while
`floor(len/3) = 1`, and `codon_tot = 1` differs from that sum. -/
theorem C1_counterexample :
    (∑ i ∈ Finset.Icc 1 64,
        (codon_usage_tot uniCa ['N', 'N', 'N'] zeroCounts).1.ncod i) = 0
    ∧ (codon_usage_tot uniCa ['N', 'N', 'N'] zeroCounts).1.codon_tot = 1
    ∧ (['N', 'N', 'N'] : List Char).length / 3 = 1
    ∧ ¬((∑ i ∈ Finset.Icc 1 64,
          (codon_usage_tot uniCa ['N', 'N', 'N'] zeroCounts).1.ncod i)
        = (['N', 'N', 'N'] : List Char).length / 3) := by decide

theorem uniDs_eq_how_synon : ∀ x, x < 65 → uniDs x = how_synon uniCa x := by
  decide

theorem uniDa_eq_how_synon_aa :
    ∀ a, a < 22 → uniDa a = how_synon_aa uniCa a := by
  decide

/-- Claim C6 (amended): `valid_stops` is marked, exactly once, for every
sequence whose length is a multiple of 3 and whose final codon translates
to the stop amino acid 11 — but not when 1-2 trailing partial bases are
present, because the partial-tail branch resets `icode` to 0 before the
stop test (see the counterexample). -/
theorem C6_valid_stop (seq : List Char) (h3 : 3 ≤ seq.length)
    (hmod : seq.length % 3 = 0)
    (hstop : uniCa ((scanIds seq).getLast?.getD 0) = 11) :
    (codon_usage_tot uniCa seq zeroCounts).1.valid_stops = 1 := by
  rw [cut_valid_stops uniCa seq zeroCounts]
  simp [zeroCounts, hmod, hstop]

theorem C6_valid_stop_witness :
    (codon_usage_tot uniCa ['T', 'A', 'A'] zeroCounts).1.valid_stops = 1 :=
  C6_valid_stop ['T', 'A', 'A'] (by decide) (by decide) (by decide)

/-- Claim C6 fails as stated for sequences with trailing partial bases:
"ATGTAAG" ends (as full codons) in the stop TAA (the last scanned codon id
is 11, the stop), yet `valid_stops` stays 0 because the partial-tail
branch of `codon_usage_tot` overwrites `icode` with 0 before the
`ca[icode] == 11` test. -/
theorem C6_counterexample :
    uniCa ((scanIds ['A', 'T', 'G', 'T', 'A', 'A', 'G']).getLast?.getD 0)
        = 11
    ∧ (codon_usage_tot uniCa ['A', 'T', 'G', 'T', 'A', 'A', 'G']
        zeroCounts).1.valid_stops = 0 := by decide

/-- Claim C7: the claim itself is the spec's intent, but the code breaks
it for lengths 0 and 1: the loop bound `seqlen - 2` is computed in
`unsigned int`, so for `seqlen < 2` it underflows to about 2^32 and the
scan loop runs across offsets far beyond the end of the buffer — offset 3
is already past the terminator of a length-1 string, an out-of-bounds
read.  For lengths ≥ 2 the bound behaves as intended and no offset beyond
the terminator is visited (length 2 scans nothing at all). -/
theorem C7_loop_bound_underflow :
    cu_oob_read 1
    ∧ cu_oob_read 0
    ∧ (∀ n, 2 ≤ n → n ≤ 4294967297 → ¬cu_oob_read n) := by
  refine ⟨⟨3, by decide⟩, ⟨3, by decide⟩, ?_⟩
  rintro n h2 hub ⟨i, hm, hlt, hgt⟩
  unfold cu_loop_bound at hlt
  omega

theorem C7_loop_bound_underflow_witness : ¬cu_oob_read 5 :=
  C7_loop_bound_underflow.2.2 5 (by decide) (by decide)

set_option maxRecDepth 16384 in
/-- Claim C2: the base mapping of `ident_codon` (T/t/U/u ↦ 1, C/c ↦ 2,
A/a ↦ 3, G/g ↦ 4, all other symbols ↦ 0), the zero-propagation (any
unrecognized position makes the codon id 0), the id formula
`(b1-1)*16 + b2 + (b3-1)*4` with its range 1..64 and its bijectivity from
recognized-base triplets onto 1..64, and the clean short-circuit on an
end-of-input '\0' sentinel in the third position. -/
theorem C2_ident_codon :
    (baseNum 'T' = 1 ∧ baseNum 't' = 1 ∧ baseNum 'U' = 1 ∧ baseNum 'u' = 1
      ∧ baseNum 'C' = 2 ∧ baseNum 'c' = 2 ∧ baseNum 'A' = 3
      ∧ baseNum 'a' = 3 ∧ baseNum 'G' = 4 ∧ baseNum 'g' = 4)
    ∧ (∀ c : Char, c ≠ 'T' → c ≠ 't' → c ≠ 'U' → c ≠ 'u' → c ≠ 'C' →
        c ≠ 'c' → c ≠ 'A' → c ≠ 'a' → c ≠ 'G' → c ≠ 'g' → baseNum c = 0)
    ∧ (∀ c0 c1 c2 : Char,
        baseNum c0 = 0 ∨ baseNum c1 = 0 ∨ baseNum c2 = 0 →
          identCodon c0 c1 c2 = 0)
    ∧ (∀ c0 c1 c2 : Char,
        1 ≤ baseNum c0 → 1 ≤ baseNum c1 → 1 ≤ baseNum c2 →
          identCodon c0 c1 c2 = codonId (baseNum c0, baseNum c1, baseNum c2)
          ∧ 1 ≤ identCodon c0 c1 c2 ∧ identCodon c0 c1 c2 ≤ 64)
    ∧ (∀ p ∈ B3, ∀ q ∈ B3, codonId p = codonId q → p = q)
    ∧ B3.image codonId = Finset.Icc 1 64
    ∧ (∀ c0 c1 : Char, identCodon c0 c1 nulChar = 0) := by
  refine ⟨by decide, ?_, ?_, ?_, by decide, by decide, ?_⟩
  · intro c h1 h2 h3 h4 h5 h6 h7 h8 h9 h10
    unfold baseNum
    split_ifs with hA hB hC hD
    · rcases hA with h | h | h | h <;> contradiction
    · rcases hB with h | h <;> contradiction
    · rcases hC with h | h <;> contradiction
    · rcases hD with h | h <;> contradiction
    · rfl
  · intro c0 c1 c2 h
    unfold identCodon identCodonBuf
    split_ifs with h1 h2 h3 h4
    · rfl
    · rfl
    · rfl
    · exfalso
      rcases h with h | h | h <;> simp [h] at h4
    · rfl
  · intro c0 c1 c2 h0 h1 h2
    have n0 : ¬(c0 = nulChar) := by
      intro e; rw [e] at h0; revert h0; decide
    have n1 : ¬(c1 = nulChar) := by
      intro e; rw [e] at h1; revert h1; decide
    have n2 : ¬(c2 = nulChar) := by
      intro e; rw [e] at h2; revert h2; decide
    have hb0 := baseNum_le c0
    have hb1 := baseNum_le c1
    have hb2 := baseNum_le c2
    unfold identCodon identCodonBuf
    rw [if_neg n0, if_neg n1, if_neg n2]
    simp only []
    rw [if_pos (by positivity)]
    unfold codonId
    refine ⟨rfl, by omega, by omega⟩
  · intro c0 c1
    unfold identCodon identCodonBuf
    split_ifs <;> simp_all

theorem C2_ident_codon_witness :
    identCodon 'G' 'C' 'T'
        = codonId (baseNum 'G', baseNum 'C', baseNum 'T')
    ∧ 1 ≤ identCodon 'G' 'C' 'T' ∧ identCodon 'G' 'C' 'T' ≤ 64 :=
  C2_ident_codon.2.2.2.1 'G' 'C' 'T' (by decide) (by decide) (by decide)

theorem stop_sum_cast (ca ncod : Nat → Nat) :
    (∑ i ∈ Finset.Icc 1 64, if ca i = 11 then (ncod i : Int) else 0)
      = ((∑ i ∈ Finset.Icc 1 64, if ca i = 11 then ncod i else 0 : Nat) :
          Int) := by
  rw [Nat.cast_sum]
  refine Finset.sum_congr rfl fun i _ => ?_
  split_ifs <;> simp

/-- Claim C8: the internal-stop check warns exactly when the number of
stop codons among the counted codons, minus `valid_stops`, is positive,
and in that case increments the internal-stop-sequence counter; and on the
standard-code sequence "ATGTAGGCTTAA" (internal TAG before the terminal
TAA) exactly one warning and one counter increment result. -/
theorem C8_internal_stop :
    (∀ (ncod : Nat → Nat) (vstops : Nat),
      vstops ≤ (∑ i ∈ Finset.Icc 1 64, if uniCa i = 11 then ncod i else 0) →
        ((codon_error_level1 uniCa ncod vstops true).2.1 = true
          ↔ 0 < (∑ i ∈ Finset.Icc 1 64, if uniCa i = 11 then ncod i else 0)
              - vstops)
        ∧ (codon_error_level1 uniCa ncod vstops true).2.2
          = (if (codon_error_level1 uniCa ncod vstops true).2.1 = true
              then 1 else 0))
    ∧ (codon_error_level1 uniCa
        (codon_usage_tot uniCa
          ['A', 'T', 'G', 'T', 'A', 'G', 'G', 'C', 'T', 'T', 'A', 'A']
          zeroCounts).1.ncod
        (codon_usage_tot uniCa
          ['A', 'T', 'G', 'T', 'A', 'G', 'G', 'C', 'T', 'T', 'A', 'A']
          zeroCounts).1.valid_stops
        true).2.1 = true
    ∧ (codon_error_level1 uniCa
        (codon_usage_tot uniCa
          ['A', 'T', 'G', 'T', 'A', 'G', 'G', 'C', 'T', 'T', 'A', 'A']
          zeroCounts).1.ncod
        (codon_usage_tot uniCa
          ['A', 'T', 'G', 'T', 'A', 'G', 'G', 'C', 'T', 'T', 'A', 'A']
          zeroCounts).1.valid_stops
        true).2.2 = 1 := by
  refine ⟨?_, by decide, by decide⟩
  intro ncod vstops hle
  simp only [codon_error_level1, stop_sum_cast uniCa ncod,
    Bool.and_eq_true, decide_eq_true_eq, ne_eq]
  constructor
  · constructor
    · rintro ⟨h, -⟩
      omega
    · intro h
      exact ⟨by omega, trivial⟩
  · trivial

theorem C8_internal_stop_witness :
    ((codon_error_level1 uniCa (fun i => if i = 11 then 2 else 0) 1
        true).2.1 = true
      ↔ 0 < (∑ i ∈ Finset.Icc 1 64,
          if uniCa i = 11 then (if i = 11 then 2 else 0) else 0) - 1)
    ∧ (codon_error_level1 uniCa (fun i => if i = 11 then 2 else 0) 1
        true).2.2
      = (if (codon_error_level1 uniCa (fun i => if i = 11 then 2 else 0) 1
          true).2.1 = true then 1 else 0) :=
  C8_internal_stop.1 (fun i => if i = 11 then 2 else 0) 1 (by decide)

/-- Claim C10: the scan loop leaves the caller's sequence buffer
byte-for-byte unchanged, because each triplet is copied into the local
4-byte `codon` buffer before `ident_codon` performs its in-place
base-to-number rewriting; the second conjunct confirms the rewriting is
real (the buffer "ATG" comes back as bytes 3,1,4), so the copy is what
protects the sequence. -/
theorem C10_sequence_preserved :
    (∀ (ca : Nat → Nat) (seq : List Char) (st : CodonCounts),
      (cu_mem ca seq st).1 = seq)
    ∧ (identCodonBuf 'A' 'T' 'G').1 ≠ ('A', 'T', 'G')
    ∧ (identCodonBuf 'A' 'T' 'G').1
      = (Char.ofNat 3, Char.ofNat 1, Char.ofNat 4) :=
  ⟨fun ca seq st => cu_mem_seq ca seq st, by decide, by decide⟩

theorem cai_scan_bad (vals : List ℚ) :
    (∃ v ∈ vals, v < 0 ∨ 1 < v) → ∀ x, cai_load_scan vals x = none := by
  induction vals with
  | nil => rintro ⟨v, hv, -⟩ x; simp at hv
  | cons v vs ih =>
    rintro ⟨w, hw, hbad⟩ x
    rcases List.mem_cons.mp hw with h | h
    · subst h
      simp [cai_load_scan, hbad]
    · unfold cai_load_scan
      split_ifs with hv
      · rfl
      · exact ih ⟨w, h, hbad⟩ (x + 1)

theorem cai_scan_good (vals : List ℚ) :
    (∀ v ∈ vals, 0 ≤ v ∧ v ≤ 1) →
      ∀ x, cai_load_scan vals x = some (x + vals.length) := by
  induction vals with
  | nil => intro _ x; simp [cai_load_scan]
  | cons v vs ih =>
    intro h x
    have hv := h v (List.mem_cons_self v vs)
    unfold cai_load_scan
    rw [if_neg (by push_neg; exact ⟨hv.1, hv.2⟩)]
    rw [ih (fun w hw => h w (List.mem_cons_of_mem v hw)) (x + 1)]
    simp
    omega

theorem cbi_count_no_cap (src : List Char) :
    ∀ x, x + src.countP (fun c => decide (fopDigitOk c)) ≤ 66 →
      cbi_load_count src x
        = x + src.countP (fun c => decide (fopDigitOk c)) := by
  induction src with
  | nil => intro x _; simp [cbi_load_count]
  | cons c cs ih =>
    intro x hx
    rw [List.countP_cons] at hx ⊢
    unfold cbi_load_count
    rw [if_neg (by omega)]
    by_cases hc : fopDigitOk c
    · rw [if_pos hc, ih (x + 1) (by simp [hc] at hx ⊢; omega)]
      simp [hc]
      omega
    · rw [if_neg hc, ih x (by simp [hc] at hx ⊢; omega)]
      simp [hc]

/-- Claim C5 (amended): reference-table loading is fatal unless exactly 64
accepted entries are present.  For CAI weight files any value outside
[0,1] aborts immediately and a well-formed stream loads iff it has exactly
64 values (so a 63-value source is a fatal count mismatch, never padded).
For Fop/CBI classification files, however, an accepted entry is any digit
'0'..'3' (the value 0 is accepted, contrary to the claimed {1,2,3}), and
digits '4'..'9' are skipped exactly like non-digit characters rather than
rejected: loading fails on a count mismatch only, so a source containing
the digit '4' loads fine whenever 64 accepted digits surround it (see the
counterexample). -/
theorem C5_reference_table_loading :
    (∀ vals : List ℚ,
      (∃ v ∈ vals, v < 0 ∨ 1 < v) → ¬cai_load_ok vals)
    ∧ (∀ vals : List ℚ,
      (∀ v ∈ vals, 0 ≤ v ∧ v ≤ 1) → (cai_load_ok vals ↔ vals.length = 64))
    ∧ (∀ src : List Char,
      src.countP (fun c => decide (fopDigitOk c)) ≤ 65 →
        (cbi_load_ok src
          ↔ src.countP (fun c => decide (fopDigitOk c)) = 64))
    ∧ (fopDigitOk '0' ∧ fopDigitOk '1' ∧ fopDigitOk '2' ∧ fopDigitOk '3'
      ∧ ¬fopDigitOk '4' ∧ ¬fopDigitOk '9' ∧ ¬fopDigitOk 'A') := by
  refine ⟨?_, ?_, ?_, by decide⟩
  · intro vals h
    unfold cai_load_ok
    rw [cai_scan_bad vals h 1]
    simp
  · intro vals h
    unfold cai_load_ok
    rw [cai_scan_good vals h 1]
    constructor
    · intro he
      have := Option.some.inj he
      omega
    · intro he
      rw [he]
  · intro src h
    unfold cbi_load_ok
    rw [cbi_count_no_cap src 1 (by omega)]
    omega

theorem C5_reference_table_loading_witness :
    cai_load_ok [(1 : ℚ) / 2] ↔ ([(1 : ℚ) / 2] : List ℚ).length = 64 :=
  C5_reference_table_loading.2.1 [(1 : ℚ) / 2] (by norm_num)

/-- Claim C5 fails as stated for classification sources: 64 accepted
digits followed by a '4' load successfully (the '4' is skipped, not an
illegal-value error), while 63 accepted digits plus a '4' — a 64-digit
stream containing '4' — fail only through the count mismatch. -/
theorem C5_counterexample :
    cbi_load_ok (List.replicate 64 '1' ++ ['4'])
    ∧ ¬cbi_load_ok (List.replicate 63 '1' ++ ['4']) := by decide

theorem cai_clamp_idem (ca ds : Nat → Nat) (w : Nat → ℚ) (x : Nat) :
    cai_clamp ca ds (cai_clamp ca ds w) x = cai_clamp ca ds w x := by
  unfold cai_clamp
  by_cases h : 1 ≤ x ∧ x ≤ 64 ∧ ¬(ca x = 11 ∨ ds x = 1) ∧ w x < 1 / 10000
  · simp only [if_pos h]
    rw [if_neg fun hc => absurd hc.2.2.2 (by norm_num)]
  · simp only [if_neg h]

theorem cutab_idem (st : CodonCounts) :
    cutab_update (cutab_update st) = cutab_update st := by
  unfold cutab_update
  congr 1

/-- Claim C9 (amended): the calculators never modify the codon or
amino-acid counts, but two of them do write shared state: `cai_out`
overwrites reference weights below 0.0001 with 0.01 inside the loaded
weight table, and `cutab_out` overwrites the shared `codon_tot` with the
recomputed `sum(ncod[1..64])`.  Both rewrites are idempotent, and the
numeric CAI output is a function of the clamped table, so repeated
invocation on the same counts yields identical outputs. -/
theorem C9_calculator_effects :
    (∀ (ca ds : Nat → Nat) (w : Nat → ℚ) (x : Nat),
      cai_clamp ca ds (cai_clamp ca ds w) x = cai_clamp ca ds w x)
    ∧ (∀ (ncod ca ds : Nat → Nat) (w : Nat → ℚ) (x : Nat),
      cai_obs ncod ca ds (cai_clamp ca ds w) x = cai_obs ncod ca ds w x)
    ∧ (∀ st : CodonCounts,
      cutab_update (cutab_update st) = cutab_update st
      ∧ (cutab_update st).ncod = st.ncod
      ∧ (cutab_update st).naa = st.naa
      ∧ (cutab_update st).valid_stops = st.valid_stops) :=
  ⟨cai_clamp_idem,
   fun ncod ca ds w x => by
    unfold cai_obs
    rw [cai_clamp_idem ca ds w x],
   fun st => ⟨cutab_idem st, by simp only [cutab_update],
     by simp only [cutab_update], by simp only [cutab_update]⟩⟩

/-- Claim C9 fails as stated: `cai_out` does mutate the loaded reference
table (a weight of 0 at the synonymous non-stop codon 1 is overwritten
with 0.01), and `cutab_out` does mutate the shared `codon_tot` (a state
holding `codon_tot = 1` with empty `ncod[1..64]`, as counting "NNN"
produces, is reset to 0). -/
theorem C9_counterexample :
    cai_clamp uniCa uniDs (fun _ => 0) 1 ≠ (0 : ℚ)
    ∧ (cutab_update
        { ncod := fun _ => 0, naa := fun _ => 0, codon_tot := 1,
          valid_stops := 0 }).codon_tot ≠ 1 := by
  constructor
  · have h : cai_clamp uniCa uniDs (fun _ => 0) 1 = 1 / 100 := by
      unfold cai_clamp
      rw [if_pos ⟨le_refl 1, by omega, by decide, by norm_num⟩]
    rw [h]
    norm_num
  · simp [cutab_update]

theorem hoi_stop (ca ds cod : Nat → Nat) : hasOptInfo ca ds cod 11 = 0 := by
  unfold hasOptInfo
  rw [Finset.card_eq_zero, Finset.filter_eq_empty_iff]
  rintro x hx ⟨hno, hcod, hca⟩
  exact hno (Or.inl hca)

theorem uniDs_eq_da_ca : ∀ y, y < 65 → uniDs y = uniDa (uniCa y) := by
  decide

theorem uniDa_ca_pos : ∀ y, y < 65 → 1 ≤ y → 1 ≤ uniDa (uniCa y) := by
  decide

theorem hoi_facts (cod : Nat → Nat) (a : Nat)
    (ha : hasOptInfo uniCa uniDs cod a ≠ 0) :
    a ∈ Finset.Icc 1 21 ∧ a ≠ 11 ∧ 2 ≤ uniDa a := by
  obtain ⟨y, hy⟩ := Finset.card_pos.mp (Nat.pos_of_ne_zero ha)
  rw [Finset.mem_filter] at hy
  obtain ⟨hyE, hno, hcod, hca⟩ := hy
  have hyE' := Finset.mem_Icc.mp hyE
  have hy65 : y < 65 := by omega
  have h1 : a ∈ Finset.Icc 1 21 := by
    rw [← hca]; exact (uniCa_mem_Icc y hy65).mpr hyE
  have h2 : a ≠ 11 := fun h => hno (Or.inl (by rw [hca, h]))
  have hds := uniDs_eq_da_ca y hy65
  have hpos := uniDa_ca_pos y hy65 (by omega)
  have h3 : uniDs y ≠ 1 := fun h => hno (Or.inr h)
  rw [hca] at hds hpos
  refine ⟨h1, h2, ?_⟩
  omega

theorem hoi_le_da (cod : Nat → Nat) (a : Nat) :
    hasOptInfo uniCa uniDs cod a ≤ uniDa a := by
  by_cases ha : a < 22
  · rw [uniDa_eq_how_synon_aa a ha]
    unfold how_synon_aa
    apply Finset.card_le_card
    intro x hx
    rw [Finset.mem_filter] at hx ⊢
    exact ⟨hx.1, hx.2.2.2⟩
  · have h0 : hasOptInfo uniCa uniDs cod a = 0 := by
      unfold hasOptInfo
      rw [Finset.card_eq_zero, Finset.filter_eq_empty_iff]
      rintro x hx ⟨hno, hcod, hca⟩
      have hxE := Finset.mem_Icc.mp hx
      have hm := (uniCa_mem_Icc x (by omega)).mpr hx
      rw [hca, Finset.mem_Icc] at hm
      omega
    omega

theorem cbi_fiber_tot (cod : Nat → Nat)
    (hok : cbi_class_ok uniCa uniDs cod) (a : Nat)
    (ha : hasOptInfo uniCa uniDs cod a ≠ 0) :
    ((Finset.Icc 1 64).filter
        (fun x => hasOptInfo uniCa uniDs cod (uniCa x) ≠ 0
          ∧ (cod x = 3 ∨ cod x = 2 ∨ cod x = 1))).filter
      (fun x => uniCa x = a)
      = (Finset.Icc 1 64).filter (fun x => uniCa x = a) := by
  ext x
  simp only [Finset.mem_filter]
  constructor
  · rintro ⟨⟨hxE, -, -⟩, hca⟩
    exact ⟨hxE, hca⟩
  · rintro ⟨hxE, hca⟩
    refine ⟨⟨hxE, by rw [hca]; exact ha, ?_⟩, hca⟩
    exact hok x (Finset.mem_filter.mpr ⟨hxE, by rw [hca]; exact ha⟩)

theorem cbi_fiber_exp (cod : Nat → Nat) (a : Nat)
    (ha : hasOptInfo uniCa uniDs cod a ≠ 0) :
    ((Finset.Icc 1 64).filter
        (fun x => hasOptInfo uniCa uniDs cod (uniCa x) ≠ 0
          ∧ cod x = 3)).filter (fun x => uniCa x = a)
      = (Finset.Icc 1 64).filter
          (fun x => ¬(uniCa x = 11 ∨ uniDs x = 1) ∧ cod x = 3
            ∧ uniCa x = a) := by
  obtain ⟨-, h11, hda2⟩ := hoi_facts cod a ha
  ext x
  simp only [Finset.mem_filter]
  constructor
  · rintro ⟨⟨hxE, -, hcod⟩, hca⟩
    refine ⟨hxE, ?_, hcod, hca⟩
    have hxE' := Finset.mem_Icc.mp hxE
    rintro (h | h)
    · exact h11 (by rw [← hca, h])
    · have hds := uniDs_eq_da_ca x (by omega)
      rw [hca] at hds
      omega
  · rintro ⟨hxE, hno, hcod, hca⟩
    exact ⟨⟨hxE, by rw [hca]; exact ha, hcod⟩, hca⟩

theorem cbi_fiber_empty (cod : Nat → Nat) (P : Nat → Prop) [DecidablePred P]
    (a : Nat) (ha : ¬hasOptInfo uniCa uniDs cod a ≠ 0) :
    ((Finset.Icc 1 64).filter
        (fun x => hasOptInfo uniCa uniDs cod (uniCa x) ≠ 0 ∧ P x)).filter
      (fun x => uniCa x = a) = ∅ := by
  rw [Finset.filter_eq_empty_iff]
  rintro x hx hca
  rw [Finset.mem_filter] at hx
  rw [hca] at hx
  exact ha hx.2.1

theorem cons_naa_q (ncod naa : Nat → Nat)
    (hcons : CountConsistent ncod naa uniCa) (a : Nat)
    (ha : a ∈ Finset.Icc 1 21) :
    ∑ x ∈ (Finset.Icc 1 64).filter (fun x => uniCa x = a), (ncod x : ℚ)
      = (naa a : ℚ) := by
  rw [Finset.sum_filter]
  have h := congrArg (fun n : Nat => (n : ℚ)) (hcons a ha)
  simp only at h
  rw [h, Nat.cast_sum]
  exact Finset.sum_congr rfl fun x _ => by split_ifs <;> simp

theorem cbi_maps_to (cod : Nat → Nat) (P : Nat → Prop) [DecidablePred P] :
    ∀ x ∈ (Finset.Icc 1 64).filter
      (fun x => hasOptInfo uniCa uniDs cod (uniCa x) ≠ 0 ∧ P x),
      uniCa x ∈ Finset.Icc 1 21 := by
  intro x hx
  rw [Finset.mem_filter] at hx
  have hxE := Finset.mem_Icc.mp hx.1
  exact (uniCa_mem_Icc x (by omega)).mpr hx.1

theorem cbi_tot_grouped (ncod naa cod : Nat → Nat)
    (hcons : CountConsistent ncod naa uniCa)
    (hok : cbi_class_ok uniCa uniDs cod) :
    (cbi_tot ncod uniCa uniDs cod : ℚ)
      = ∑ a ∈ (Finset.Icc 1 21).filter
          (fun a => hasOptInfo uniCa uniDs cod a ≠ 0), (naa a : ℚ) := by
  unfold cbi_tot
  rw [Nat.cast_sum,
    ← Finset.sum_fiberwise_of_maps_to
      (cbi_maps_to cod (fun x => cod x = 3 ∨ cod x = 2 ∨ cod x = 1))
      (fun x => (ncod x : ℚ)),
    ← Finset.sum_filter_add_sum_filter_not (Finset.Icc 1 21)
      (fun a => hasOptInfo uniCa uniDs cod a ≠ 0)]
  have hz : ∑ a ∈ (Finset.Icc 1 21).filter
      (fun a => ¬hasOptInfo uniCa uniDs cod a ≠ 0),
      ∑ x ∈ ((Finset.Icc 1 64).filter
        (fun x => hasOptInfo uniCa uniDs cod (uniCa x) ≠ 0
          ∧ (cod x = 3 ∨ cod x = 2 ∨ cod x = 1))).filter
        (fun x => uniCa x = a), (ncod x : ℚ) = 0 := by
    apply Finset.sum_eq_zero
    intro a ha
    rw [Finset.mem_filter] at ha
    rw [cbi_fiber_empty cod _ a ha.2]
    exact Finset.sum_empty
  rw [hz, add_zero]
  refine Finset.sum_congr rfl fun a ha => ?_
  rw [Finset.mem_filter] at ha
  rw [cbi_fiber_tot cod hok a ha.2, cons_naa_q ncod naa hcons a ha.1]

theorem cbi_exp_grouped (naa cod : Nat → Nat) :
    cbi_exp naa uniCa uniDs uniDa cod
      = ∑ a ∈ (Finset.Icc 1 21).filter
          (fun a => hasOptInfo uniCa uniDs cod a ≠ 0),
          (hasOptInfo uniCa uniDs cod a : ℚ)
            * ((naa a : ℚ) / (uniDa a : ℚ)) := by
  unfold cbi_exp
  rw [← Finset.sum_fiberwise_of_maps_to
      (cbi_maps_to cod (fun x => cod x = 3))
      (fun x => (naa (uniCa x) : ℚ) / (uniDa (uniCa x) : ℚ)),
    ← Finset.sum_filter_add_sum_filter_not (Finset.Icc 1 21)
      (fun a => hasOptInfo uniCa uniDs cod a ≠ 0)]
  have hz : ∑ a ∈ (Finset.Icc 1 21).filter
      (fun a => ¬hasOptInfo uniCa uniDs cod a ≠ 0),
      ∑ x ∈ ((Finset.Icc 1 64).filter
        (fun x => hasOptInfo uniCa uniDs cod (uniCa x) ≠ 0
          ∧ cod x = 3)).filter (fun x => uniCa x = a),
        (naa (uniCa x) : ℚ) / (uniDa (uniCa x) : ℚ) = 0 := by
    apply Finset.sum_eq_zero
    intro a ha
    rw [Finset.mem_filter] at ha
    rw [cbi_fiber_empty cod _ a ha.2]
    exact Finset.sum_empty
  rw [hz, add_zero]
  refine Finset.sum_congr rfl fun a ha => ?_
  rw [Finset.mem_filter] at ha
  rw [cbi_fiber_exp cod a ha.2]
  rw [Finset.sum_congr rfl (g := fun _ => (naa a : ℚ) / (uniDa a : ℚ))
    (fun x hx => by
      rw [Finset.mem_filter] at hx
      rw [hx.2.2.2])]
  rw [Finset.sum_const, nsmul_eq_mul]
  rfl

theorem cbi_opt_grouped (ncod cod : Nat → Nat) :
    (cbi_opt ncod uniCa uniDs cod : ℚ)
      = ∑ a ∈ (Finset.Icc 1 21).filter
          (fun a => hasOptInfo uniCa uniDs cod a ≠ 0),
          ∑ x ∈ (Finset.Icc 1 64).filter
            (fun x => ¬(uniCa x = 11 ∨ uniDs x = 1) ∧ cod x = 3
              ∧ uniCa x = a), (ncod x : ℚ) := by
  unfold cbi_opt
  rw [Nat.cast_sum,
    ← Finset.sum_fiberwise_of_maps_to
      (cbi_maps_to cod (fun x => cod x = 3))
      (fun x => (ncod x : ℚ)),
    ← Finset.sum_filter_add_sum_filter_not (Finset.Icc 1 21)
      (fun a => hasOptInfo uniCa uniDs cod a ≠ 0)]
  have hz : ∑ a ∈ (Finset.Icc 1 21).filter
      (fun a => ¬hasOptInfo uniCa uniDs cod a ≠ 0),
      ∑ x ∈ ((Finset.Icc 1 64).filter
        (fun x => hasOptInfo uniCa uniDs cod (uniCa x) ≠ 0
          ∧ cod x = 3)).filter (fun x => uniCa x = a),
        (ncod x : ℚ) = 0 := by
    apply Finset.sum_eq_zero
    intro a ha
    rw [Finset.mem_filter] at ha
    rw [cbi_fiber_empty cod _ a ha.2]
    exact Finset.sum_empty
  rw [hz, add_zero]
  refine Finset.sum_congr rfl fun a ha => ?_
  rw [Finset.mem_filter] at ha
  rw [cbi_fiber_exp cod a ha.2]

theorem cbi_optq_le (ncod naa cod : Nat → Nat)
    (hcons : CountConsistent ncod naa uniCa) (a : Nat)
    (ha : a ∈ Finset.Icc 1 21) :
    ∑ x ∈ (Finset.Icc 1 64).filter
        (fun x => ¬(uniCa x = 11 ∨ uniDs x = 1) ∧ cod x = 3
          ∧ uniCa x = a), (ncod x : ℚ) ≤ (naa a : ℚ) := by
  rw [← cons_naa_q ncod naa hcons a ha]
  apply Finset.sum_le_sum_of_subset_of_nonneg
  · intro x hx
    rw [Finset.mem_filter] at hx ⊢
    exact ⟨hx.1, hx.2.2.2⟩
  · intro x _ _
    positivity

theorem hoi_term_le (naa : Nat → Nat) (a : Nat) (k : Nat)
    (hk : (k : ℚ) ≤ (uniDa a : ℚ)) (hda : uniDa a ≠ 0) :
    (k : ℚ) * ((naa a : ℚ) / (uniDa a : ℚ)) ≤ (naa a : ℚ) := by
  have hda' : ((uniDa a : ℚ)) ≠ 0 := Nat.cast_ne_zero.mpr hda
  have h1 : (k : ℚ) * ((naa a : ℚ) / (uniDa a : ℚ))
      ≤ (uniDa a : ℚ) * ((naa a : ℚ) / (uniDa a : ℚ)) :=
    mul_le_mul_of_nonneg_right hk (by positivity)
  have h2 : (uniDa a : ℚ) * ((naa a : ℚ) / (uniDa a : ℚ)) = (naa a : ℚ) := by
    field_simp
  linarith

/-- Claim C4 (amended): with consistent counts, `cbi_out` computes
CBI = (opt - exp_cod)/(tot_cod - exp_cod) over the families owning at
least one optimal codon (0 when the denominator is 0); the result never
exceeds 1, and it lies in [-1, 1] whenever no eligible family marks more
than half of its codons optimal — but with a table marking more than half
of a family optimal the result can drop below -1 (see the
counterexample), so the claimed unconditional lower bound fails. -/
theorem C4_cbi_bounds (ncod naa cod : Nat → Nat)
    (hcons : CountConsistent ncod naa uniCa) (r : ℚ)
    (hr : cbi_result ncod naa uniCa uniDs uniDa cod = some r) :
    (r = if (cbi_tot ncod uniCa uniDs cod : ℚ)
          - cbi_exp naa uniCa uniDs uniDa cod ≠ 0 then
        ((cbi_opt ncod uniCa uniDs cod : ℚ)
            - cbi_exp naa uniCa uniDs uniDa cod)
          / ((cbi_tot ncod uniCa uniDs cod : ℚ)
            - cbi_exp naa uniCa uniDs uniDa cod)
      else 0)
    ∧ r ≤ 1
    ∧ ((∀ a ∈ Finset.Icc 1 21, hasOptInfo uniCa uniDs cod a ≠ 0 →
          2 * hasOptInfo uniCa uniDs cod a ≤ uniDa a) → -1 ≤ r) := by
  have hok : cbi_class_ok uniCa uniDs cod := by
    by_contra h
    unfold cbi_result at hr
    rw [if_neg h] at hr
    exact Option.noConfusion hr
  unfold cbi_result at hr
  rw [if_pos hok] at hr
  have hrv := (Option.some.inj hr).symm
  have hT := cbi_tot_grouped ncod naa cod hcons hok
  have hE := cbi_exp_grouped naa cod
  have hO := cbi_opt_grouped ncod cod
  have hOT : (cbi_opt ncod uniCa uniDs cod : ℚ)
      ≤ (cbi_tot ncod uniCa uniDs cod : ℚ) := by
    rw [hO, hT]
    apply Finset.sum_le_sum
    intro a ha
    exact cbi_optq_le ncod naa cod hcons a (Finset.mem_of_mem_filter a ha)
  have he_le : ∀ a ∈ (Finset.Icc 1 21).filter
      (fun a => hasOptInfo uniCa uniDs cod a ≠ 0),
      (hasOptInfo uniCa uniDs cod a : ℚ)
          * ((naa a : ℚ) / (uniDa a : ℚ)) ≤ (naa a : ℚ) := by
    intro a ha
    rw [Finset.mem_filter] at ha
    have hda2 := (hoi_facts cod a ha.2).2.2
    exact hoi_term_le naa a _
      (Nat.cast_le.mpr (hoi_le_da cod a)) (by omega)
  have hD0 : 0 ≤ (cbi_tot ncod uniCa uniDs cod : ℚ)
      - cbi_exp naa uniCa uniDs uniDa cod := by
    rw [hT, hE, ← Finset.sum_sub_distrib]
    apply Finset.sum_nonneg
    intro a ha
    have := he_le a ha
    linarith
  refine ⟨hrv, ?_, ?_⟩
  · by_cases hD : (cbi_tot ncod uniCa uniDs cod : ℚ)
        - cbi_exp naa uniCa uniDs uniDa cod ≠ 0
    · rw [hrv, if_pos hD]
      rw [div_le_one (lt_of_le_of_ne hD0 (Ne.symm hD))]
      linarith
    · rw [hrv, if_neg hD]
      norm_num
  · intro hhalf
    by_cases hD : (cbi_tot ncod uniCa uniDs cod : ℚ)
        - cbi_exp naa uniCa uniDs uniDa cod ≠ 0
    · rw [hrv, if_pos hD]
      rw [le_div_iff (lt_of_le_of_ne hD0 (Ne.symm hD))]
      have h2 : 2 * cbi_exp naa uniCa uniDs uniDa cod
          ≤ (cbi_opt ncod uniCa uniDs cod : ℚ)
            + (cbi_tot ncod uniCa uniDs cod : ℚ) := by
        rw [hE, hO, hT, Finset.mul_sum, ← Finset.sum_add_distrib]
        apply Finset.sum_le_sum
        intro a ha
        have haf := ha
        rw [Finset.mem_filter] at haf
        have hda2 := (hoi_facts cod a haf.2).2.2
        have hhoi2 := hhalf a haf.1 haf.2
        have h2e := hoi_term_le naa a (2 * hasOptInfo uniCa uniDs cod a)
          (Nat.cast_le.mpr hhoi2) (by omega)
        have hopt0 : 0 ≤ ∑ x ∈ (Finset.Icc 1 64).filter
            (fun x => ¬(uniCa x = 11 ∨ uniDs x = 1) ∧ cod x = 3
              ∧ uniCa x = a), (ncod x : ℚ) := by
          apply Finset.sum_nonneg
          intro x _
          positivity
        push_cast at h2e
        linarith
      linarith
    · rw [hrv, if_neg hD]
      norm_num

/-- Claim C4 fails as stated: with two of Ile's three codons marked
optimal and all usage on the third, `cbi_out` yields CBI = -2, outside
the claimed range [-1, 1]. -/
theorem C4_counterexample :
    cbi_result cbiNcodCex cbiNaaCex uniCa uniDs uniDa cbiCodCex
        = some (-2)
    ∧ ((-2 : ℚ) < -1) := by
  have hok : cbi_class_ok uniCa uniDs cbiCodCex := by decide
  have hopt : cbi_opt cbiNcodCex uniCa uniDs cbiCodCex = 0 := by decide
  have htot : cbi_tot cbiNcodCex uniCa uniDs cbiCodCex = 3 := by decide
  have hfil : (Finset.Icc 1 64).filter
      (fun x => hasOptInfo uniCa uniDs cbiCodCex (uniCa x) ≠ 0
        ∧ cbiCodCex x = 3) = {33, 37} := by decide
  have hexp : cbi_exp cbiNaaCex uniCa uniDs uniDa cbiCodCex = 2 := by
    unfold cbi_exp
    rw [hfil]
    have h33 : uniCa 33 = 3 := by decide
    have h37 : uniCa 37 = 3 := by decide
    rw [Finset.sum_pair (by norm_num : (33 : ℕ) ≠ 37)]
    rw [h33, h37]
    have hna : cbiNaaCex 3 = 3 := by decide
    have hda : uniDa 3 = 3 := by decide
    rw [hna, hda]
    norm_num
  constructor
  · unfold cbi_result
    rw [if_pos hok, htot, hexp, hopt]
    norm_num
  · norm_num

theorem cbiW_result :
    cbi_result cbiNcodW cbiNaaW uniCa uniDs uniDa cbiCodW = some 0 := by
  have hok : cbi_class_ok uniCa uniDs cbiCodW := by decide
  have hopt : cbi_opt cbiNcodW uniCa uniDs cbiCodW = 1 := by decide
  have htot : cbi_tot cbiNcodW uniCa uniDs cbiCodW = 2 := by decide
  have hfil : (Finset.Icc 1 64).filter
      (fun x => hasOptInfo uniCa uniDs cbiCodW (uniCa x) ≠ 0
        ∧ cbiCodW x = 3) = {1} := by decide
  have hexp : cbi_exp cbiNaaW uniCa uniDs uniDa cbiCodW = 1 := by
    unfold cbi_exp
    rw [hfil]
    have h1 : uniCa 1 = 1 := by decide
    rw [Finset.sum_singleton, h1]
    have hna : cbiNaaW 1 = 2 := by decide
    have hda : uniDa 1 = 2 := by decide
    rw [hna, hda]
    norm_num
  unfold cbi_result
  rw [if_pos hok, htot, hexp, hopt]
  norm_num

theorem C4_cbi_bounds_witness :
    ((0 : ℚ) = if (cbi_tot cbiNcodW uniCa uniDs cbiCodW : ℚ)
          - cbi_exp cbiNaaW uniCa uniDs uniDa cbiCodW ≠ 0 then
        ((cbi_opt cbiNcodW uniCa uniDs cbiCodW : ℚ)
            - cbi_exp cbiNaaW uniCa uniDs uniDa cbiCodW)
          / ((cbi_tot cbiNcodW uniCa uniDs cbiCodW : ℚ)
            - cbi_exp cbiNaaW uniCa uniDs uniDa cbiCodW)
      else 0)
    ∧ (0 : ℚ) ≤ 1
    ∧ ((∀ a ∈ Finset.Icc 1 21, hasOptInfo uniCa uniDs cbiCodW a ≠ 0 →
          2 * hasOptInfo uniCa uniDs cbiCodW a ≤ uniDa a) → -1 ≤ (0 : ℚ)) :=
  C4_cbi_bounds cbiNcodW cbiNaaW cbiCodW (by decide) 0 cbiW_result

theorem enc_s2_no_if (ncod naa ca : Nat → Nat) (i : Nat) :
    enc_s2 ncod naa ca i
      = ∑ x ∈ Finset.Icc 1 64,
          if ca x = i then ((ncod x : ℚ) / (naa i : ℚ)) ^ 2 else 0 := by
  unfold enc_s2
  refine Finset.sum_congr rfl fun x _ => ?_
  split_ifs with h1 h2
  · rw [h2]
    norm_num
  · rfl
  · rfl

theorem s2_le_one (ncod naa : Nat → Nat)
    (hcons : CountConsistent ncod naa uniCa) (i : Nat)
    (hi : i ∈ Finset.Icc 1 21) (h2 : 2 ≤ naa i) :
    enc_s2 ncod naa uniCa i ≤ 1 := by
  rw [enc_s2_no_if]
  have hcx : ∀ x ∈ Finset.Icc 1 64, uniCa x = i → ncod x ≤ naa i := by
    intro x hx hca
    rw [hcons i hi]
    calc ncod x = if uniCa x = i then ncod x else 0 := by rw [if_pos hca]
      _ ≤ ∑ y ∈ Finset.Icc 1 64, if uniCa y = i then ncod y else 0 :=
        Finset.single_le_sum (f := fun y => if uniCa y = i then ncod y else 0)
          (fun y _ => by positivity) hx
  have hnat : (∑ x ∈ Finset.Icc 1 64, if uniCa x = i then ncod x ^ 2 else 0)
      ≤ naa i ^ 2 := by
    calc (∑ x ∈ Finset.Icc 1 64, if uniCa x = i then ncod x ^ 2 else 0)
        ≤ ∑ x ∈ Finset.Icc 1 64,
            if uniCa x = i then ncod x * naa i else 0 := by
          refine Finset.sum_le_sum fun x hx => ?_
          split_ifs with h
          · rw [pow_two]
            exact Nat.mul_le_mul_left (ncod x) (hcx x hx h)
          · exact le_refl 0
      _ = (∑ x ∈ Finset.Icc 1 64, if uniCa x = i then ncod x else 0)
            * naa i := by
          rw [Finset.sum_mul]
          refine Finset.sum_congr rfl fun x _ => ?_
          split_ifs <;> simp
      _ = naa i * naa i := by rw [← hcons i hi, Nat.mul_comm]
      _ = naa i ^ 2 := (pow_two (naa i)).symm
  have hpos : (0 : ℚ) < (naa i : ℚ) ^ 2 := by
    have h0 : (0 : ℚ) < (naa i : ℚ) := by
      exact_mod_cast (by omega : 0 < naa i)
    positivity
  have hsum : ∑ x ∈ Finset.Icc 1 64,
      (if uniCa x = i then ((ncod x : ℚ) / (naa i : ℚ)) ^ 2 else 0)
      = (∑ x ∈ Finset.Icc 1 64,
          if uniCa x = i then ((ncod x : ℚ)) ^ 2 else 0)
        / (naa i : ℚ) ^ 2 := by
    rw [Finset.sum_div]
    refine Finset.sum_congr rfl fun x _ => ?_
    split_ifs with h
    · rw [div_pow]
    · simp
  rw [hsum, div_le_one hpos]
  have hcast : (∑ x ∈ Finset.Icc 1 64,
      if uniCa x = i then ((ncod x : ℚ)) ^ 2 else 0)
      = ((∑ x ∈ Finset.Icc 1 64,
          if uniCa x = i then ncod x ^ 2 else 0 : Nat) : ℚ) := by
    rw [Nat.cast_sum]
    refine Finset.sum_congr rfl fun x _ => ?_
    split_ifs <;> push_cast <;> ring
  rw [hcast]
  exact_mod_cast hnat

theorem bb_le_one (ncod naa : Nat → Nat)
    (hcons : CountConsistent ncod naa uniCa) (i : Nat)
    (hi : i ∈ Finset.Icc 1 21) :
    enc_bb ncod naa uniCa i ≤ 1 := by
  unfold enc_bb
  split_ifs with h
  · norm_num
  · have h2 : 2 ≤ naa i := by omega
    have hs2 := s2_le_one ncod naa hcons i hi h2
    have hn : (2 : ℚ) ≤ (naa i : ℚ) := by exact_mod_cast h2
    rw [div_le_one (by linarith)]
    have hs2' : (naa i : ℚ) * enc_s2 ncod naa uniCa i ≤ (naa i : ℚ) * 1 :=
      mul_le_mul_of_nonneg_left hs2 (by linarith)
    linarith

theorem enc_aa_step_inv (ncod naa ca da : Nat → Nat) (acc : EncAcc)
    (i : Nat) (hbb : i ≠ 11 → enc_bb ncod naa ca i ≤ 1)
    (hP : EncInv acc) : EncInv (enc_aa_step ncod naa ca da acc i) := by
  intro z
  obtain ⟨h0, hle, hpos⟩ := hP z
  simp only [enc_aa_step]
  split_ifs with h11 hth
  · exact ⟨h0, hle, hpos⟩
  · dsimp only [bump]
    have hb1 := hbb h11
    by_cases hz : z = da i
    · rw [if_pos hz, if_pos hz]
      push_cast
      exact ⟨by linarith, by linarith, fun _ => by linarith⟩
    · rw [if_neg hz, if_neg hz]
      exact ⟨h0, hle, hpos⟩
  · dsimp only [bump]
    exact ⟨h0, hle, hpos⟩

theorem enc_pass_inv (ncod naa ca da : Nat → Nat) :
    ∀ (l : List Nat) (acc : EncAcc),
      (∀ i ∈ l, i ≠ 11 → enc_bb ncod naa ca i ≤ 1) → EncInv acc →
      EncInv (l.foldl (enc_aa_step ncod naa ca da) acc)
  | [], acc => fun _ hP => hP
  | i :: l, acc => fun hbb hP => by
    rw [List.foldl_cons]
    exact enc_pass_inv ncod naa ca da l _
      (fun j hj => hbb j (List.mem_cons_of_mem i hj))
      (enc_aa_step_inv ncod naa ca da acc i
        (hbb i (List.mem_cons_self i l)) hP)

theorem enc_averb_bounds (acc : EncAcc) (hP : EncInv acc) (z : Nat)
    (a : ℚ) (ha : enc_averb acc z = some a) : 0 < a ∧ a ≤ 1 := by
  unfold enc_averb at ha
  split_ifs at ha with h1 h2
  · obtain ⟨hn, ht⟩ := h1
    have hnq : (0 : ℚ) < (acc.numaa z : ℚ) := by
      exact_mod_cast Nat.pos_of_ne_zero hn
    rw [← Option.some.inj ha]
    constructor
    · exact div_pos ht hnq
    · rw [div_le_one hnq]
      exact (hP z).2.1
  · obtain ⟨-, hn2, hn4, -⟩ := h2
    have h2q : (0 : ℚ) < (acc.numaa 2 : ℚ) := by
      exact_mod_cast Nat.pos_of_ne_zero hn2
    have h4q : (0 : ℚ) < (acc.numaa 4 : ℚ) := by
      exact_mod_cast Nat.pos_of_ne_zero hn4
    have ht2 := (hP 2).2.2 hn2
    have ht4 := (hP 4).2.2 hn4
    have hd2 : 0 < acc.totb 2 / (acc.numaa 2 : ℚ) := div_pos ht2 h2q
    have hd4 : 0 < acc.totb 4 / (acc.numaa 4 : ℚ) := div_pos ht4 h4q
    have hu2 : acc.totb 2 / (acc.numaa 2 : ℚ) ≤ 1 := by
      rw [div_le_one h2q]; exact (hP 2).2.1
    have hu4 : acc.totb 4 / (acc.numaa 4 : ℚ) ≤ 1 := by
      rw [div_le_one h4q]; exact (hP 4).2.1
    rw [← Option.some.inj ha]
    constructor <;> linarith

theorem enc_step_ge (acc : EncAcc) (hP : EncInv acc) (z : Nat) (c : ℚ)
    (hc : enc_step acc z = some c) : (acc.fold z : ℚ) ≤ c := by
  unfold enc_step at hc
  split_ifs at hc with h
  · obtain ⟨a, ha, rfl⟩ := Option.map_eq_some'.mp hc
    obtain ⟨ha0, ha1⟩ := enc_averb_bounds acc hP z a ha
    rw [le_div_iff ha0]
    exact mul_le_of_le_one_right (by positivity) ha1
  · rw [← Option.some.inj hc]
    push_neg at h
    rw [h]
    norm_num

theorem enc_go_ge (step : Nat → Option ℚ) (F : Nat → ℚ) :
    ∀ (l : List Nat) (acc res : ℚ),
      (∀ z ∈ l, ∀ c, step z = some c → F z ≤ c) →
      enc_go step l acc = some res → acc + (l.map F).sum ≤ res
  | [], acc, res => fun _ h => by
    simp only [enc_go] at h
    rw [← Option.some.inj h]
    simp
  | z :: l, acc, res => fun hb h => by
    simp only [enc_go] at h
    cases hs : step z with
    | none => rw [hs] at h; exact Option.noConfusion h
    | some c =>
      rw [hs] at h
      have ih := enc_go_ge step F l (acc + c) res
        (fun w hw => hb w (List.mem_cons_of_mem z hw)) h
      have hz := hb z (List.mem_cons_self z l) c hs
      simp only [List.map_cons, List.sum_cons]
      linarith

theorem enc_fold_step (ncod naa ca da : Nat → Nat) (acc : EncAcc)
    (i z : Nat) :
    (enc_aa_step ncod naa ca da acc i).fold z
      = acc.fold z + (if i ≠ 11 ∧ z = da i then 1 else 0) := by
  by_cases h11 : i = 11
  · simp [enc_aa_step, h11]
  · by_cases hz : z = da i
    · simp only [enc_aa_step, bump, if_neg h11]
      split_ifs with hth <;> simp [hz, h11] <;> tauto
    · simp only [enc_aa_step, bump, if_neg h11]
      split_ifs with hth <;> simp [hz, h11] <;> tauto

theorem pass_fold (ncod naa ca da : Nat → Nat) :
    ∀ (l : List Nat) (acc : EncAcc) (z : Nat),
      ((l.foldl (enc_aa_step ncod naa ca da) acc).fold) z
        = acc.fold z + l.countP (fun i => decide (i ≠ 11 ∧ z = da i))
  | [], acc, z => by simp
  | i :: l, acc, z => by
    rw [List.foldl_cons, pass_fold ncod naa ca da l _ z, List.countP_cons,
      enc_fold_step ncod naa ca da acc i z]
    by_cases hc : i ≠ 11 ∧ z = da i
    · simp [hc]
      omega
    · simp [hc]

theorem enc_totb_step (ncod naa ca da : Nat → Nat) (g : Nat → ℚ)
    (acc : EncAcc) (i z : Nat)
    (hh : i ≠ 11 → enc_bb ncod naa ca i > 1 / 10000000
      ∧ enc_bb ncod naa ca i = g (da i)) :
    (enc_aa_step ncod naa ca da acc i).totb z
      = acc.totb z + (if i ≠ 11 ∧ z = da i then g z else 0) := by
  by_cases h11 : i = 11
  · simp [enc_aa_step, h11]
  · obtain ⟨hth, hg⟩ := hh h11
    simp only [enc_aa_step, if_neg h11, if_pos hth]
    by_cases hz : z = da i
    · rw [if_pos hz, if_pos ⟨h11, hz⟩, hg, hz]
    · rw [if_neg hz, if_neg (fun hc => hz hc.2), add_zero]

theorem enc_numaa_step (ncod naa ca da : Nat → Nat)
    (acc : EncAcc) (i z : Nat)
    (hh : i ≠ 11 → enc_bb ncod naa ca i > 1 / 10000000) :
    (enc_aa_step ncod naa ca da acc i).numaa z
      = acc.numaa z + (if i ≠ 11 ∧ z = da i then 1 else 0) := by
  by_cases h11 : i = 11
  · simp [enc_aa_step, h11]
  · simp only [enc_aa_step, if_neg h11, if_pos (hh h11), bump]
    by_cases hz : z = da i
    · rw [if_pos hz, if_pos ⟨h11, hz⟩]
    · rw [if_neg hz, if_neg (fun hc => hz hc.2), add_zero]

theorem pass_uniform (ncod naa ca da : Nat → Nat) (g : Nat → ℚ) :
    ∀ (l : List Nat) (acc : EncAcc),
      (∀ i ∈ l, i ≠ 11 → enc_bb ncod naa ca i > 1 / 10000000
        ∧ enc_bb ncod naa ca i = g (da i)) →
      ∀ z,
        ((l.foldl (enc_aa_step ncod naa ca da) acc).totb z
          = acc.totb z
            + (l.countP (fun i => decide (i ≠ 11 ∧ z = da i)) : ℚ) * g z)
        ∧ ((l.foldl (enc_aa_step ncod naa ca da) acc).numaa z
          = acc.numaa z + l.countP (fun i => decide (i ≠ 11 ∧ z = da i)))
  | [], acc => fun _ z => by simp
  | i :: l, acc => fun hh z => by
    rw [List.foldl_cons]
    obtain ⟨ht, hn⟩ := pass_uniform ncod naa ca da g l
      (enc_aa_step ncod naa ca da acc i)
      (fun j hj => hh j (List.mem_cons_of_mem i hj)) z
    rw [List.countP_cons, ht, hn,
      enc_totb_step ncod naa ca da g acc i z
        (hh i (List.mem_cons_self i l)),
      enc_numaa_step ncod naa ca da acc i z
        (fun h => (hh i (List.mem_cons_self i l) h).1)]
    by_cases hc : i ≠ 11 ∧ z = da i
    · rw [if_pos hc, if_pos hc, decide_eq_true hc]
      constructor
      · push_cast
        simp
        try ring
      · simp
        try omega
    · rw [if_neg hc, if_neg hc, decide_eq_false hc]
      constructor
      · push_cast
        simp
        try ring
      · simp

theorem uniDa_ge_one : ∀ i, 1 ≤ i → i ≤ 21 → 1 ≤ uniDa i := by decide

theorem uniDa_le_six : ∀ i, i ≤ 21 → uniDa i ≤ 6 := by decide

theorem uniform_s2 (i : Nat) (hi : i ∈ Finset.Icc 1 21) :
    enc_s2 uniNcod uniNaa uniCa i
      = uniDa i • ((2 : ℚ) / ((2 * uniDa i : ℕ) : ℚ)) ^ 2 := by
  rw [enc_s2_no_if]
  have hstep : ∀ x ∈ Finset.Icc 1 64,
      (if uniCa x = i then ((uniNcod x : ℚ) / (uniNaa i : ℚ)) ^ 2 else 0)
        = (if uniCa x = i then ((2 : ℚ) / ((2 * uniDa i : ℕ) : ℚ)) ^ 2
            else 0) := by
    intro x hx
    split_ifs with h
    · have hx' := Finset.mem_Icc.mp hx
      have hn : uniNcod x = 2 := by
        unfold uniNcod
        rw [if_pos ⟨hx'.1, hx'.2⟩]
      have hna : uniNaa i = 2 * uniDa i := rfl
      rw [hn, hna]
      norm_num
    · rfl
  rw [Finset.sum_congr rfl hstep, ← Finset.sum_filter, Finset.sum_const]
  congr 1
  have hi' := Finset.mem_Icc.mp hi
  rw [uniDa_eq_how_synon_aa i (by omega)]
  rfl

theorem uniform_bb (i : Nat) (hi : i ∈ Finset.Icc 1 21) :
    enc_bb uniNcod uniNaa uniCa i = 1 / (2 * (uniDa i : ℚ) - 1) := by
  have hi' := Finset.mem_Icc.mp hi
  have hk1 : 1 ≤ uniDa i := uniDa_ge_one i hi'.1 hi'.2
  have hkq : (1 : ℚ) ≤ (uniDa i : ℚ) := by exact_mod_cast hk1
  have hk0 : ((uniDa i : ℚ)) ≠ 0 := by linarith
  have h2k : (2 * (uniDa i : ℚ) - 1) ≠ 0 := by linarith
  unfold enc_bb
  rw [if_neg (by
    have hna : uniNaa i = 2 * uniDa i := rfl
    omega)]
  rw [uniform_s2 i hi]
  have hna : uniNaa i = 2 * uniDa i := rfl
  rw [hna, nsmul_eq_mul]
  push_cast
  have e : 2 * (uniDa i : ℚ) * ((uniDa i : ℚ) * (2 / (2 * (uniDa i : ℚ))) ^ 2)
      = 2 := by
    field_simp
    ring
  rw [e]
  norm_num

theorem uniform_hg : ∀ i ∈ List.range' 1 21, i ≠ 11 →
    enc_bb uniNcod uniNaa uniCa i > 1 / 10000000
    ∧ enc_bb uniNcod uniNaa uniCa i
      = (fun z => 1 / (2 * (z : ℚ) - 1)) (uniDa i) := by
  intro i hi h11
  have hi' : 1 ≤ i ∧ i < 1 + 21 := List.mem_range'_1.mp hi
  have hbb := uniform_bb i (Finset.mem_Icc.mpr ⟨hi'.1, by omega⟩)
  have hk1 := uniDa_ge_one i hi'.1 (by omega)
  have hk6 := uniDa_le_six i (by omega)
  have hq1 : (1 : ℚ) ≤ (uniDa i : ℚ) := by exact_mod_cast hk1
  have hq6 : (uniDa i : ℚ) ≤ 6 := by exact_mod_cast hk6
  refine ⟨?_, hbb⟩
  rw [hbb]
  have h1 : (1 : ℚ) / 11 ≤ 1 / (2 * (uniDa i : ℚ) - 1) := by
    apply one_div_le_one_div_of_le (by linarith)
    linarith
  calc (1 : ℚ) / 10000000 < 1 / 11 := by norm_num
    _ ≤ 1 / (2 * (uniDa i : ℚ) - 1) := h1

theorem uniform_acc_fields : ∀ z,
    ((enc_aa_pass uniNcod uniNaa uniCa uniDa).totb z
      = ((List.range' 1 21).countP
          (fun i => decide (i ≠ 11 ∧ z = uniDa i)) : ℚ)
        * (1 / (2 * (z : ℚ) - 1)))
    ∧ ((enc_aa_pass uniNcod uniNaa uniCa uniDa).numaa z
      = (List.range' 1 21).countP (fun i => decide (i ≠ 11 ∧ z = uniDa i)))
    ∧ ((enc_aa_pass uniNcod uniNaa uniCa uniDa).fold z
      = (List.range' 1 21).countP
          (fun i => decide (i ≠ 11 ∧ z = uniDa i))) := by
  intro z
  have h := pass_uniform uniNcod uniNaa uniCa uniDa
    (fun z => 1 / (2 * (z : ℚ) - 1)) (List.range' 1 21)
    { totb := fun _ => 0, numaa := fun _ => 0, fold := fun _ => 0 }
    uniform_hg z
  have hf := pass_fold uniNcod uniNaa uniCa uniDa (List.range' 1 21)
    { totb := fun _ => 0, numaa := fun _ => 0, fold := fun _ => 0 } z
  refine ⟨?_, ?_, ?_⟩
  · have := h.1
    simpa [enc_aa_pass] using this
  · have := h.2
    simpa [enc_aa_pass] using this
  · simpa [enc_aa_pass] using hf

theorem uniform_step_pos (z : Nat) (hz : 2 ≤ z) (n : Nat) (hn : n ≠ 0)
    (hc : (List.range' 1 21).countP
        (fun i => decide (i ≠ 11 ∧ z = uniDa i)) = n) :
    enc_step (enc_aa_pass uniNcod uniNaa uniCa uniDa) z
      = some ((n : ℚ) / ((n : ℚ) * (1 / (2 * (z : ℚ) - 1)) / (n : ℚ))) := by
  obtain ⟨ht, hnm, hf⟩ := uniform_acc_fields z
  rw [hc] at ht hnm hf
  have hnq : (0 : ℚ) < (n : ℚ) := by exact_mod_cast Nat.pos_of_ne_zero hn
  have hzq : (2 : ℚ) ≤ (z : ℚ) := by exact_mod_cast hz
  have hpos1 : (0 : ℚ) < 1 / (2 * (z : ℚ) - 1) := by
    apply one_div_pos.mpr
    linarith
  unfold enc_step
  rw [if_pos (by rw [hf]; exact hn)]
  unfold enc_averb
  rw [if_pos ⟨by rw [hnm]; exact hn, by rw [ht]; exact mul_pos hnq hpos1⟩]
  rw [Option.map_some']
  rw [ht, hnm, hf]

theorem uniform_step_zero (z : Nat)
    (hc : (List.range' 1 21).countP
        (fun i => decide (i ≠ 11 ∧ z = uniDa i)) = 0) :
    enc_step (enc_aa_pass uniNcod uniNaa uniCa uniDa) z = some 0 := by
  obtain ⟨-, -, hf⟩ := uniform_acc_fields z
  rw [hc] at hf
  unfold enc_step
  rw [if_neg (fun h => h hf)]

theorem uniform_enc_61 :
    enc_reported uniNcod uniNaa uniCa uniDa = some 61 := by
  have h2 := uniform_step_pos 2 (by norm_num) 9 (by norm_num) (by decide)
  have h3 := uniform_step_pos 3 (by norm_num) 1 (by norm_num) (by decide)
  have h4 := uniform_step_pos 4 (by norm_num) 5 (by norm_num) (by decide)
  have h6 := uniform_step_pos 6 (by norm_num) 3 (by norm_num) (by decide)
  have h5 := uniform_step_zero 5 (by decide)
  have h7 := uniform_step_zero 7 (by decide)
  have h8 := uniform_step_zero 8 (by decide)
  obtain ⟨-, -, hf1⟩ := uniform_acc_fields 1
  have hc1 : (List.range' 1 21).countP
      (fun i => decide (i ≠ 11 ∧ 1 = uniDa i)) = 2 := by decide
  rw [hc1] at hf1
  simp only [enc_reported, enc_result]
  rw [hf1]
  simp only [enc_go, h2, h3, h4, h5, h6, h7, h8, Option.map_some']
  norm_num

theorem enc_lower (ncod naa : Nat → Nat)
    (hcons : CountConsistent ncod naa uniCa) (e : ℚ)
    (he : enc_result ncod naa uniCa uniDa = some e) : 20 ≤ e := by
  have hP0 : EncInv
      { totb := fun _ => 0, numaa := fun _ => 0, fold := fun _ => 0 } := by
    intro z
    exact ⟨le_refl 0, by norm_num, fun h => absurd rfl h⟩
  have hbb : ∀ i ∈ List.range' 1 21, i ≠ 11 →
      enc_bb ncod naa uniCa i ≤ 1 := by
    intro i hi h11
    have hi' := List.mem_range'_1.mp hi
    exact bb_le_one ncod naa hcons i (Finset.mem_Icc.mpr ⟨hi'.1, by omega⟩)
  have hP : EncInv (enc_aa_pass ncod naa uniCa uniDa) := by
    unfold enc_aa_pass
    exact enc_pass_inv ncod naa uniCa uniDa (List.range' 1 21) _ hbb hP0
  simp only [enc_result] at he
  have hgo := enc_go_ge (enc_step (enc_aa_pass ncod naa uniCa uniDa))
    (fun z => ((enc_aa_pass ncod naa uniCa uniDa).fold z : ℚ))
    [2, 3, 4, 5, 6, 7, 8]
    ((enc_aa_pass ncod naa uniCa uniDa).fold 1 : ℚ) e
    (fun z _ c hc => enc_step_ge _ hP z c hc) he
  have hfold : ∀ z, (enc_aa_pass ncod naa uniCa uniDa).fold z
      = (List.range' 1 21).countP
          (fun i => decide (i ≠ 11 ∧ z = uniDa i)) := by
    intro z
    have := pass_fold ncod naa uniCa uniDa (List.range' 1 21)
      { totb := fun _ => 0, numaa := fun _ => 0, fold := fun _ => 0 } z
    simpa [enc_aa_pass] using this
  simp only [List.map_cons, List.map_nil, List.sum_cons,
    List.sum_nil] at hgo
  rw [hfold 1, hfold 2, hfold 3, hfold 4, hfold 5, hfold 6, hfold 7,
    hfold 8] at hgo
  have cc1 : (List.range' 1 21).countP
      (fun i => decide (i ≠ 11 ∧ 1 = uniDa i)) = 2 := by decide
  have cc2 : (List.range' 1 21).countP
      (fun i => decide (i ≠ 11 ∧ 2 = uniDa i)) = 9 := by decide
  have cc3 : (List.range' 1 21).countP
      (fun i => decide (i ≠ 11 ∧ 3 = uniDa i)) = 1 := by decide
  have cc4 : (List.range' 1 21).countP
      (fun i => decide (i ≠ 11 ∧ 4 = uniDa i)) = 5 := by decide
  have cc5 : (List.range' 1 21).countP
      (fun i => decide (i ≠ 11 ∧ 5 = uniDa i)) = 0 := by decide
  have cc6 : (List.range' 1 21).countP
      (fun i => decide (i ≠ 11 ∧ 6 = uniDa i)) = 3 := by decide
  have cc7 : (List.range' 1 21).countP
      (fun i => decide (i ≠ 11 ∧ 7 = uniDa i)) = 0 := by decide
  have cc8 : (List.range' 1 21).countP
      (fun i => decide (i ≠ 11 ∧ 8 = uniDa i)) = 0 := by decide
  rw [cc1, cc2, cc3, cc4, cc5, cc6, cc7, cc8] at hgo
  push_cast at hgo
  linarith

/-- Claim C3: whenever `enc_out` reports a numeric Enc value for a
consistent `CountState` under the universal code, the value lies in
[20, 61]; for every state the reported value never exceeds 61 (the cap
prints 61.00 past that, the sentinel covers missing fold data); and
maximally uniform synonymous-codon usage (every codon used twice) reports
exactly 61. -/
theorem C3_enc_bounds :
    (∀ ncod naa : Nat → Nat, CountConsistent ncod naa uniCa →
      ∀ v : ℚ, enc_reported ncod naa uniCa uniDa = some v →
        20 ≤ v ∧ v ≤ 61)
    ∧ (∀ (ncod naa : Nat → Nat) (v : ℚ),
        enc_reported ncod naa uniCa uniDa = some v → v ≤ 61)
    ∧ enc_reported uniNcod uniNaa uniCa uniDa = some 61 := by
  have hcap : ∀ (ncod naa : Nat → Nat) (v : ℚ),
      enc_reported ncod naa uniCa uniDa = some v → v ≤ 61 := by
    intro ncod naa v hv
    unfold enc_reported at hv
    obtain ⟨e, he, rfl⟩ := Option.map_eq_some'.mp hv
    split_ifs with h
    · exact h
    · exact le_refl 61
  refine ⟨?_, hcap, uniform_enc_61⟩
  intro ncod naa hcons v hv
  refine ⟨?_, hcap ncod naa v hv⟩
  unfold enc_reported at hv
  obtain ⟨e, he, rfl⟩ := Option.map_eq_some'.mp hv
  have h20 := enc_lower ncod naa hcons e he
  split_ifs with h
  · exact h20
  · norm_num

theorem C3_enc_bounds_witness : 20 ≤ (61 : ℚ) ∧ (61 : ℚ) ≤ 61 :=
  C3_enc_bounds.1 uniNcod uniNaa (by decide) 61 C3_enc_bounds.2.2
